import Mathlib

/-!
Verification of the bag-of-cells codec (`src/boc/boc.ts`).

The development shallow-embeds the codec: byte buffers are `List Nat`
(every entry a byte value; JS `Buffer` stores are truncating, which is
modelled with `% 256` at each store), cells are a nested inductive, and
each `throw` of the source becomes a distinct constructor of `BocError`.
External collaborators that are part of the repository but whose sources
are not provided (`BitString`, `topologicalSort`, `crc32c`, the Cell
class) and the external `sha256_sync` are modelled from the spec; each
such definition carries a doc comment saying so.
-/

deriving instance DecidableEq for Except

/-- Modelled from the spec: the 256-bit cryptographic hash (`sha256_sync`
from the external `ton-crypto` package).  Its internals are irrelevant to
every claim (only the bytes fed to it matter), so it is modelled as an
unspecified but fixed computable function producing a 32-byte digest. -/
def sha256 (data : List Nat) : List Nat :=
  (List.range 32).map
    (fun i => data.foldl (fun a b => (a * 257 + b + 2) % 1099511627776) (i + 1) % 256)

/-- Modelled from the spec: the CRC32C (Castagnoli) checksum consumed from
`src/boc/utils/crc32c.ts`, whose source is not provided.  Only its
4-byte-output interface matters to the claims, so it is modelled as an
unspecified but fixed computable 4-byte checksum. -/
def crc32c (data : List Nat) : List Nat :=
  let h := data.foldl (fun a b => (a * 31 + b + 1) % 4294967296) 5381
  [h / 16777216 % 256, h / 65536 % 256, h / 256 % 256, h % 256]

/-- `writeNumber` (boc.ts): big-endian fixed-width integer write.  The JS
source stores `(n >> (i * 8)) & 0xff`; on the in-range values this codec
produces (`n < 256 ^ bytes`, widths at most 4 for any buffer a JS engine
can allocate) that equals the big-endian base-256 digits used here. -/
def writeNumber (n : Nat) (bytes : Nat) : List Nat :=
  (List.range bytes).map (fun i => n / 256 ^ (bytes - 1 - i) % 256)

/-- `readNBytesUIntFromArray` (boc.ts): big-endian read of `n` bytes.
The JS source indexes past the end of a short buffer, obtaining
`undefined` and folding it into `NaN`; the model returns `none` at that
point (every such input is eventually rejected by the JS code as well). -/
def readNBytesUIntFromArray (n : Nat) (ui8array : List Nat) : Option Nat :=
  if ui8array.length < n then none
  else some ((ui8array.take n).foldl (fun res b => res * 256 + b) 0)

/-- Helper used throughout: explicit concat-map, the shape of every
sequential buffer write loop in the source. -/
def concatMap (f : α → List β) : List α → List β
  | [] => []
  | a :: as => f a ++ concatMap f as

/-- Number of binary digits of `n`, i.e. JS `n.toString(2).length`
(where `(0).toString(2) = "0"` has length 1).  Implemented with explicit
fuel so that it reduces inside the kernel. -/
def bitLenAux : Nat → Nat → Nat
  | 0, _ => 0
  | fuel + 1, n => if n = 0 then 0 else bitLenAux fuel (n / 2) + 1

/-- JS `n.toString(2).length`. -/
def bitLen (n : Nat) : Nat := if n = 0 then 1 else bitLenAux n n

/-! ## Bit-packed payload storage (external collaborator `BitString`) -/

/-- Value of up to eight bits read most-significant-first, as packed by
the `BitString` byte layout. -/
def byteOfBits (l : List Bool) : Nat :=
  l.foldl (fun a b => 2 * a + (if b then 1 else 0)) 0

/-- Pack a bit list (whose length is a multiple of 8 whenever it is
produced by the top-upped writer) into bytes, eight bits per byte,
most significant bit first. -/
def bitsToBytes : List Bool → List Nat
  | b1 :: b2 :: b3 :: b4 :: b5 :: b6 :: b7 :: b8 :: rest =>
      byteOfBits [b1, b2, b3, b4, b5, b6, b7, b8] :: bitsToBytes rest
  | [] => []
  | l => [byteOfBits l]

/-- The eight bits of a byte, most significant first. -/
def byteBits (b : Nat) : List Bool :=
  (List.range 8).map (fun i => decide (b / 2 ^ (7 - i) % 2 = 1))

/-- Unpack bytes into their bits, most significant bit of each byte
first. -/
def bytesToBits (l : List Nat) : List Bool := concatMap byteBits l

/-- Modelled from the spec: `BitString.getTopUppedLength()` — the number
of bytes of the byte-aligned ("top-upped") payload encoding, i.e.
`ceil(cursor / 8)`. -/
def getTopUppedLength (bits : List Bool) : Nat := (bits.length + 7) / 8

/-- The padding convention of the top-upped encoding: a payload whose bit
length is not a multiple of 8 is extended with a single marker `1` bit
followed by `0` bits up to the next byte boundary. -/
def topUp (bits : List Bool) : List Bool :=
  if bits.length % 8 = 0 then bits
  else bits ++ true :: List.replicate (7 - bits.length % 8) false

/-- Modelled from the spec: `BitString.writeTopUppedArray` — the
byte-aligned encoding of the payload with the trailing-marker-bit padding
convention.  The source writes into a caller-supplied buffer at a cursor;
since every caller writes exactly `getTopUppedLength` fresh bytes there,
the model returns the bytes. -/
def writeTopUppedArray (bits : List Bool) : List Nat := bitsToBytes (topUp bits)

/-- Remove the top-up padding: drop trailing `0` bits, then the lowest
set bit, which is the padding marker (spec §4.3). -/
def dropPadding (l : List Bool) : List Bool :=
  ((l.reverse.dropWhile (fun b => b == false)).drop 1).reverse

/-- Modelled from the spec: `BitString.fromTopUppedArray` — decode a
byte-aligned payload; when `fullfilledBytes` is false the true bit length
is recovered by locating the lowest set bit at the end and excluding it
as the padding marker. -/
def fromTopUppedArray (bytes : List Nat) (fullfilledBytes : Bool) : List Bool :=
  let all := bytesToBits bytes
  if fullfilledBytes then all else dropPadding all

/-! ## The cell data model -/

/-- `CellType` (src/boc/CellType.ts): the closed set of string tags the
codec accepts. -/
inductive CellKind where
  | ordinary
  | pruned
  | library_reference
  | merkle_proof
  | merkle_update
deriving DecidableEq, Repr

/-- Modelled from the spec: the `Cell` entity — kind, bit-packed payload
with used-length cursor (the list length is the cursor), ordered child
references. -/
inductive Cell where
  | mk (kind : CellKind) (bits : List Bool) (refs : List Cell)

/-- The `kind` field of a cell. -/
def Cell.kind : Cell → CellKind
  | .mk k _ _ => k

/-- The payload bits of a cell (`cell.bits`, whose `cursor` is the list
length). -/
def Cell.bits : Cell → List Bool
  | .mk _ b _ => b

/-- The ordered child references of a cell. -/
def Cell.refs : Cell → List Cell
  | .mk _ _ rs => rs

/-- Modelled from the spec: `cell.isExotic` — every kind other than
`ordinary` is exotic. -/
def Cell.isExotic (c : Cell) : Bool := c.kind != CellKind.ordinary

mutual
/-- Boolean structural equality of cells (the nested inductive does not
support derived decidable equality directly). -/
def cellBEq : Cell → Cell → Bool
  | Cell.mk k1 b1 r1, Cell.mk k2 b2 r2 => k1 == k2 && b1 == b2 && cellBEqList r1 r2
/-- Boolean structural equality of cell lists. -/
def cellBEqList : List Cell → List Cell → Bool
  | [], [] => true
  | c :: cs, d :: ds => cellBEq c d && cellBEqList cs ds
  | _, _ => false
end

mutual
def cellBEq_eq : ∀ a b : Cell, cellBEq a b = true → a = b
  | Cell.mk k1 b1 r1, Cell.mk k2 b2 r2, h => by
    simp only [cellBEq, Bool.and_eq_true, beq_iff_eq] at h
    obtain ⟨⟨h1, h2⟩, h3⟩ := h
    have h4 := cellBEqList_eq r1 r2 h3
    subst h1; subst h2; subst h4; rfl
def cellBEqList_eq : ∀ a b : List Cell, cellBEqList a b = true → a = b
  | [], [], _ => rfl
  | c :: cs, d :: ds, h => by
    simp only [cellBEqList, Bool.and_eq_true] at h
    have h1 := cellBEq_eq c d h.1
    have h2 := cellBEqList_eq cs ds h.2
    subst h1; subst h2; rfl
end

mutual
def cellBEq_refl : ∀ a : Cell, cellBEq a a = true
  | Cell.mk k b r => by
    simp only [cellBEq, Bool.and_eq_true, beq_self_eq_true, true_and]
    exact cellBEqList_refl r
def cellBEqList_refl : ∀ a : List Cell, cellBEqList a a = true
  | [] => rfl
  | c :: cs => by
    simp only [cellBEqList, Bool.and_eq_true]
    exact ⟨cellBEq_refl c, cellBEqList_refl cs⟩
end

instance : DecidableEq Cell := fun a b =>
  if h : cellBEq a b = true then isTrue (cellBEq_eq a b h)
  else isFalse (fun he => h (he ▸ cellBEq_refl a))

/-! ## Hash/Depth engine (boc.ts lines 49-123) -/

mutual
/-- `getMaxDepth` (boc.ts): 0 for a childless cell, else one more than
the maximum of the children's depths.  The per-call memoization of the
source is semantically the identity on this pure tree model; it is
modelled explicitly in the stateful store model further below (claim
C9). -/
def getMaxDepth : Cell → Nat
  | Cell.mk _ _ rs => if rs.length > 0 then maxDepthList rs + 1 else 0
/-- The running maximum that the `for` loop of `getMaxDepth`
accumulates over the children. -/
def maxDepthList : List Cell → Nat
  | [] => 0
  | c :: cs => max (getMaxDepth c) (maxDepthList cs)
end

/-- `getMaxLevel` (boc.ts): permanently 0, an acknowledged placeholder
(spec §9). -/
def getMaxLevel (_cell : Cell) : Nat := 0

/-- `getRefsDescriptor` (boc.ts). -/
def getRefsDescriptor (cell : Cell) : Nat :=
  cell.refs.length + (if cell.isExotic then 1 else 0) * 8 + getMaxLevel cell * 32

/-- `getBitsDescriptor` (boc.ts): `ceil(len / 8) + floor(len / 8)` where
`len` is the payload cursor plus 8 when the cell is exotic. -/
def getBitsDescriptor (cell : Cell) : Nat :=
  (cell.bits.length + (if cell.isExotic then 8 else 0) + 7) / 8 +
    (cell.bits.length + (if cell.isExotic then 8 else 0)) / 8

/-- The two big-endian depth bytes written per child by `getRepr`
(`Math.floor(md / 256)` and `md % 256`, each truncated by the byte
store). -/
def depthBytes (rs : List Cell) : List Nat :=
  concatMap (fun r => [getMaxDepth r / 256 % 256, getMaxDepth r % 256]) rs

mutual
/-- `hashCell` (boc.ts): SHA-256 of the canonical representation built by
`getRepr`.  The body inlines `getRepr` so that the mutual recursion is
structural (see `hashCell_eq` below for the `sha256 ∘ getRepr`
factoring); the per-call memoization is the identity on this pure tree
model and is modelled explicitly in the store model (claim C9). -/
def hashCell : Cell → List Nat
  | Cell.mk k b rs =>
      sha256 ((getRefsDescriptor (Cell.mk k b rs) % 256) ::
        (getBitsDescriptor (Cell.mk k b rs) % 256) ::
        (writeTopUppedArray b ++ depthBytes rs ++ hashConcat rs))
/-- The concatenated child hashes written by the second loop of
`getRepr`. -/
def hashConcat : List Cell → List Nat
  | [] => []
  | c :: cs => hashCell c ++ hashConcat cs
end

/-- `getRepr` (boc.ts): descriptor bytes, top-upped payload, children's
big-endian 16-bit depths, children's hashes — written sequentially into
a buffer of exactly that size, hence modelled as the concatenation. -/
def getRepr (cell : Cell) : List Nat :=
  match cell with
  | Cell.mk k b rs =>
      (getRefsDescriptor (Cell.mk k b rs) % 256) ::
        (getBitsDescriptor (Cell.mk k b rs) % 256) ::
        (writeTopUppedArray b ++ depthBytes rs ++ hashConcat rs)

/-! ## Topological linearizer (external collaborator `topologicalSort`) -/

mutual
/-- Number of nodes of the cell tree. -/
def cellCount : Cell → Nat
  | Cell.mk _ _ rs => 1 + cellCountList rs
/-- Total node count of a list of cell trees. -/
def cellCountList : List Cell → Nat
  | [] => 0
  | c :: cs => cellCount c + cellCountList cs
end

/-- Positions, in the preorder sequence, of the roots of a list of
sibling subtrees whose first root sits at position `pos`. -/
def childPositions : List Cell → Nat → List Nat
  | [], _ => []
  | c :: cs, pos => pos :: childPositions cs (pos + cellCount c)

mutual
/-- Preorder linearization starting at position `pos`: each entry pairs a
cell with its children's positions in the same sequence. -/
def topoAux : Cell → Nat → List (Cell × List Nat)
  | Cell.mk k b rs, pos =>
      (Cell.mk k b rs, childPositions rs (pos + 1)) :: topoAuxList rs (pos + 1)
/-- Preorder linearization of sibling subtrees, the first starting at
position `pos`. -/
def topoAuxList : List Cell → Nat → List (Cell × List Nat)
  | [], _ => []
  | c :: cs, pos => topoAux c pos ++ topoAuxList cs (pos + cellCount c)
end

/-- Modelled from the spec: `topologicalSort` (src/boc/utils/
topologicalSort.ts, source not provided) — an ordered cell sequence
starting with the root, each entry carrying its children's positions in
the same sequence, every child's position strictly greater than its
parent's.  Preorder traversal realizes this contract.  (The repository
implementation additionally merges shared subtrees of a DAG; on the tree
values of this embedding the two coincide.) -/
def topologicalSort (root : Cell) : List (Cell × List Nat) := topoAux root 0

mutual
/-- The cells of the preorder sequence, without positions. -/
def preCells : Cell → List Cell
  | Cell.mk k b rs => Cell.mk k b rs :: preCellsList rs
/-- The cells of the preorder sequence of sibling subtrees. -/
def preCellsList : List Cell → List Cell
  | [] => []
  | c :: cs => preCells c ++ preCellsList cs
end

/-! ## Errors -/

/-- One constructor per distinct `throw` of boc.ts, in source order:
`notEnoughMagic` = 'Not enough bytes for magic prefix', `unknownMagic` =
'Unknown magic prefix', `notEnoughCounters` = 'Not enough bytes for
encoding cells counters', `notEnoughRoots` = 'Not enough bytes for
encoding root cells hashes', `notEnoughIndex` = 'Not enough bytes for
index encoding', `notEnoughCells` = 'Not enough bytes for cells data',
`notEnoughCrc` = 'Not enough bytes for crc32c hashsum', `crcMismatch` =
'Crc32c hashsum mismatch', `tooMuchBytes` = 'Too much bytes in BoC
serialization', `notEnoughCellDescriptors` = 'Not enough bytes to encode
cell descriptors', `notEnoughCellData` = 'Not enough bytes to encode
cell data', `invalidCellType` = 'Invalid cell type', `brokenTopoOrder` =
'Topological order is broken'.  `readPastEnd` is not a JS throw site: it
marks the model's refusal to read bytes beyond the end of the buffer,
where the JS source would fold `undefined` into `NaN` (or raise a
`RangeError` from `Buffer.readUInt8`). -/
inductive BocError where
  | notEnoughMagic
  | unknownMagic
  | notEnoughCounters
  | notEnoughRoots
  | notEnoughIndex
  | notEnoughCells
  | notEnoughCrc
  | crcMismatch
  | tooMuchBytes
  | notEnoughCellDescriptors
  | notEnoughCellData
  | invalidCellType
  | brokenTopoOrder
  | readPastEnd
deriving DecidableEq, Repr

/-! ## Header codec (parseBocHeader, boc.ts lines 138-254) -/

/-- `reachBocMagicPrefix` = B5EE9C72. -/
def reachBocMagic : List Nat := [0xb5, 0xee, 0x9c, 0x72]

/-- `leanBocMagicPrefix` = 68FF65F3. -/
def leanBocMagic : List Nat := [0x68, 0xff, 0x65, 0xf3]

/-- `leanBocMagicPrefixCRC` = ACC3A728. -/
def leanBocMagicCRC : List Nat := [0xac, 0xc3, 0xa7, 0x28]

/-- The magic/flag-byte dispatch of `parseBocHeader` (boc.ts lines
155-176); returns `(has_idx, hash_crc32, has_cache_bits, flags,
size_bytes)`.  The JS bit masks `b & 128`, `b & 64`, `b & 32`, `(b & 16)
* 2 + (b & 8)`, `b % 8` are written with division/modulus. -/
def decodeMagicFlags (magic : List Nat) (b : Nat) :
    Option (Bool × Bool × Bool × Nat × Nat) :=
  if magic = reachBocMagic then
    some (b / 128 % 2 == 1, b / 64 % 2 == 1, b / 32 % 2 == 1,
      b / 16 % 2 * 16 * 2 + b / 8 % 2 * 8, b % 8)
  else if magic = leanBocMagic then
    some (true, false, false, 0, b)
  else if magic = leanBocMagicCRC then
    some (true, true, false, 0, b)
  else none

/-- The result record of `parseBocHeader`. -/
structure BocHeader where
  has_idx : Bool
  hash_crc32 : Bool
  has_cache_bits : Bool
  flags : Nat
  size_bytes : Nat
  off_bytes : Nat
  cells_num : Nat
  roots_num : Nat
  absent_num : Nat
  tot_cells_size : Nat
  root_list : List Nat
  index : Option (List Nat)
  cells_data : List Nat
deriving DecidableEq, Repr

/-- The read loops of `parseBocHeader` (root list and index): `count`
values of `width` bytes each, consuming `width` bytes per step. -/
def readIntList (count width : Nat) (arr : List Nat) : Except BocError (List Nat) :=
  match count with
  | 0 => .ok []
  | c + 1 =>
    match readNBytesUIntFromArray width arr with
    | none => .error .readPastEnd
    | some v =>
      match readIntList c width (arr.drop width) with
      | .error e => .error e
      | .ok rest => .ok (v :: rest)

/-- `parseBocHeader` (boc.ts lines 138-254), step for step; the repeated
`serializedBoc = serializedBoc.subarray(k)` of the source becomes the
successive `drop`s. -/
def parseBocHeader (serializedBoc : List Nat) : Except BocError BocHeader :=
  if serializedBoc.length < 4 + 1 then .error .notEnoughMagic else
  match decodeMagicFlags (serializedBoc.take 4) ((serializedBoc.drop 4).headD 0) with
  | none => .error .unknownMagic
  | some (has_idx, hash_crc32, has_cache_bits, flags, size_bytes) =>
    let s1 := serializedBoc.drop 5
    if s1.length < 1 + 5 * size_bytes then .error .notEnoughCounters else
    let offset_bytes := s1.headD 0
    let s2 := s1.drop 1
    match readNBytesUIntFromArray size_bytes s2 with
    | none => .error .readPastEnd
    | some cells_num =>
    let s3 := s2.drop size_bytes
    match readNBytesUIntFromArray size_bytes s3 with
    | none => .error .readPastEnd
    | some roots_num =>
    let s4 := s3.drop size_bytes
    match readNBytesUIntFromArray size_bytes s4 with
    | none => .error .readPastEnd
    | some absent_num =>
    let s5 := s4.drop size_bytes
    match readNBytesUIntFromArray offset_bytes s5 with
    | none => .error .readPastEnd
    | some tot_cells_size =>
    let s6 := s5.drop offset_bytes
    if s6.length < roots_num * size_bytes then .error .notEnoughRoots else
    match readIntList roots_num size_bytes s6 with
    | .error e => .error e
    | .ok root_list =>
    let s7 := s6.drop (roots_num * size_bytes)
    match (if has_idx then
            (if s7.length < offset_bytes * cells_num then .error .notEnoughIndex else
             match readIntList cells_num offset_bytes s7 with
             | .error e => .error e
             | .ok idx => .ok (some idx))
           else (.ok none : Except BocError (Option (List Nat)))) with
    | .error e => .error e
    | .ok index =>
    let s8 := if has_idx then s7.drop (offset_bytes * cells_num) else s7
    if s8.length < tot_cells_size then .error .notEnoughCells else
    let cells_data := s8.take tot_cells_size
    let s9 := s8.drop tot_cells_size
    match (if hash_crc32 then
            (if s9.length < 4 then .error .notEnoughCrc else
             if crc32c (serializedBoc.take (serializedBoc.length - 4)) ≠ s9.take 4 then
               .error .crcMismatch
             else .ok ())
           else (.ok () : Except BocError Unit)) with
    | .error e => .error e
    | .ok _ =>
    let s10 := if hash_crc32 then s9.drop 4 else s9
    if s10.length ≠ 0 then .error .tooMuchBytes else
    .ok { has_idx := has_idx, hash_crc32 := hash_crc32,
          has_cache_bits := has_cache_bits, flags := flags,
          size_bytes := size_bytes, off_bytes := offset_bytes,
          cells_num := cells_num, roots_num := roots_num,
          absent_num := absent_num, tot_cells_size := tot_cells_size,
          root_list := root_list, index := index, cells_data := cells_data }

/-! ## Cell record codec (deserializeCellData, boc.ts lines 256-305) -/

/-- `deserializeCellData` (boc.ts): decode one on-wire cell record,
returning the still-unlinked cell content, its raw reference indices and
the unconsumed remainder.  The JS `dataBytesize--` after the exotic-type
byte makes the value `-1` on the degenerate exotic record with `d2 = 0`,
and `Buffer.subarray` counts a negative index from the END of the
buffer: `subarray(0, -1)` is everything but the last byte and
`subarray(-1)` is the last byte, so such a record's payload swallows the
whole remaining region except its final byte and the references are read
starting at that final byte.  With the remainder `r1` this is `take
(r1.length - 1)` / `drop (r1.length - 1)`, the `d2 = 0` branch below;
for `d2 ≥ 1` the decremented value is the plain `dataBytesize - 1`. -/
def deserializeCellData (cellData : List Nat) (referenceIndexSize : Nat) :
    Except BocError ((CellKind × List Bool) × List Nat × List Nat) :=
  if cellData.length < 2 then .error .notEnoughCellDescriptors else
  let d1 := cellData.headD 0
  let d2 := (cellData.drop 1).headD 0
  let r0 := cellData.drop 2
  let refNum := d1 % 8
  let dataBytesize := (d2 + 1) / 2
  let fullfilledBytes := d2 % 2 == 0
  if r0.length < dataBytesize + referenceIndexSize * refNum then
    .error .notEnoughCellData else
  match (if d1 / 8 % 2 == 1 then
          match r0 with
          | [] => .error .readPastEnd
          | k :: r1 =>
            let dbs1 := if d2 = 0 then r1.length - 1 else dataBytesize - 1
            if k = 1 then .ok (CellKind.pruned, r1, dbs1)
            else if k = 2 then .ok (CellKind.library_reference, r1, dbs1)
            else if k = 3 then .ok (CellKind.merkle_proof, r1, dbs1)
            else if k = 4 then .ok (CellKind.merkle_update, r1, dbs1)
            else .error .invalidCellType
         else (.ok (CellKind.ordinary, r0, dataBytesize) :
                Except BocError (CellKind × List Nat × Nat))) with
  | .error e => .error e
  | .ok (kind, r1, dbs) =>
    let bits := fromTopUppedArray (r1.take dbs) fullfilledBytes
    let r2 := r1.drop dbs
    match readIntList refNum referenceIndexSize r2 with
    | .error e => .error e
    | .ok refs => .ok ((kind, bits), refs, r2.drop (referenceIndexSize * refNum))

/-- The first loop of `deserializeBoc`: decode `count` records in stream
order. -/
def decodeRecords (count : Nat) (cellsData : List Nat) (sizeBytes : Nat) :
    Except BocError (List ((CellKind × List Bool) × List Nat)) :=
  match count with
  | 0 => .ok []
  | n + 1 =>
    match deserializeCellData cellsData sizeBytes with
    | .error e => .error e
    | .ok (cell, refs, residue) =>
      match decodeRecords n residue sizeBytes with
      | .error e => .error e
      | .ok rest => .ok ((cell, refs) :: rest)

/-- Stand-in for the value JS stores when a reference index is at least
`cells_num` (`cells_array[r]` is `undefined`): no claim depends on this
value. -/
def undefCell : Cell := Cell.mk CellKind.ordinary [] []

/-- The inner loop of `deserializeBoc`'s linking pass at position `ci`:
resolve the raw indices against `linked`, the already-final cells of
positions `ci + 1` and up.  An index `r < ci` is the source's thrown
topological-order error; `r = ci` passes the source's `r < ci` check and
makes JS link the cell to itself — a cyclic object a tree cannot
represent, so the model substitutes the record's own unlinked cell
(`self`), which is value-faithful for every acyclic result and
error-faithful always. -/
def resolveRefs (ci : Nat) (self : Cell) (linked : List Cell) :
    List Nat → Except BocError (List Cell)
  | [] => .ok []
  | r :: rest =>
    if r < ci then .error .brokenTopoOrder
    else
      match resolveRefs ci self linked rest with
      | .error e => .error e
      | .ok others =>
        .ok ((if r = ci then self else (linked.get? (r - ci - 1)).getD undefCell)
              :: others)

/-- The last-to-first linking loop of `deserializeBoc` (boc.ts lines
318-327): the cell at position `ci` receives the final cells at its
reference positions (all greater than `ci`, already resolved). -/
def linkAux : Nat → List ((CellKind × List Bool) × List Nat) →
    Except BocError (List Cell)
  | _, [] => .ok []
  | ci, ((k, b), rs) :: rest =>
    match linkAux (ci + 1) rest with
    | .error e => .error e
    | .ok tail =>
      match resolveRefs ci (Cell.mk k b []) tail rs with
      | .error e => .error e
      | .ok refs => .ok (Cell.mk k b refs :: tail)

/-- The linking pass over the whole record array. -/
def linkCells (recs : List ((CellKind × List Bool) × List Nat)) :
    Except BocError (List Cell) :=
  linkAux 0 recs

/-- `deserializeBoc` (boc.ts lines 307-333): header, record stream,
linking pass, root selection.  A root entry is the JS
`cells_array[ri]`, which is `undefined` (`none`) when `ri` is out of
range — the source performs no bounds check there. -/
def deserializeBoc (serializedBoc : List Nat) : Except BocError (List (Option Cell)) :=
  match parseBocHeader serializedBoc with
  | .error e => .error e
  | .ok header =>
    match decodeRecords header.cells_num header.cells_data header.size_bytes with
    | .error e => .error e
    | .ok recs =>
      match linkCells recs with
      | .error e => .error e
      | .ok cells_array => .ok (header.root_list.map (fun ri => cells_array.get? ri))

/-! ## Serializer (boc.ts lines 339-444) -/

/-- `calcCellSerializedSize` (boc.ts): descriptors, optional exotic-type
byte, top-upped payload, fixed-width reference indices. -/
def calcCellSerializedSize (cell : Cell) (sSize : Nat) : Nat :=
  2 + (if cell.isExotic then 1 else 0) + getTopUppedLength cell.bits +
    cell.refs.length * sSize

/-- The exotic-type byte written by `serializeForBoc` (1 = pruned, 2 =
library_reference, 3 = merkle_proof, 4 = merkle_update; the `ordinary`
arm is never consulted because no byte is written for non-exotic
cells). -/
def cellTypeByte : CellKind → Nat
  | .pruned => 1
  | .library_reference => 2
  | .merkle_proof => 3
  | .merkle_update => 4
  | .ordinary => 0

/-- `serializeForBoc` (boc.ts): one on-wire record — both descriptor
bytes (truncated by the byte store), the exotic-type byte when exotic,
the top-upped payload, then each reference position big-endian at width
`sSize`.  The source writes into the shared output buffer at a cursor
advanced by exactly `calcCellSerializedSize`, hence the concatenation. -/
def serializeForBoc (cell : Cell) (refs : List Nat) (sSize : Nat) : List Nat :=
  (getRefsDescriptor cell % 256) :: (getBitsDescriptor cell % 256) ::
    ((if cell.isExotic then [cellTypeByte cell.kind] else []) ++
     writeTopUppedArray cell.bits ++
     concatMap (fun r => writeNumber r sSize) refs)

/-- The `allCells` list of `serializeToBoc`. -/
def bocAllCells (cell : Cell) : List (Cell × List Nat) := topologicalSort cell

/-- `s_bytes` of `serializeToBoc`: `Math.max(Math.ceil(s / 8), 1)` where
`s` is the bit length of `cells_num`. -/
def bocSBytes (cell : Cell) : Nat :=
  max ((bitLen (bocAllCells cell).length + 7) / 8) 1

/-- The per-cell serialized sizes of `serializeToBoc`. -/
def bocSizes (cell : Cell) : List Nat :=
  (bocAllCells cell).map (fun p => calcCellSerializedSize p.1 (bocSBytes cell))

/-- `full_size` of `serializeToBoc`: the running total of the sizes. -/
def bocFullSize (cell : Cell) : Nat := (bocSizes cell).sum

/-- The running-total loop of `serializeToBoc` building `sizeIndex`:
inclusive cumulative sums. -/
def cumSums (acc : Nat) : List Nat → List Nat
  | [] => []
  | x :: xs => (acc + x) :: cumSums (acc + x) xs

/-- `sizeIndex` of `serializeToBoc`: each entry is the cumulative byte
offset of the end of the corresponding record. -/
def bocSizeIndex (cell : Cell) : List Nat := cumSums 0 (bocSizes cell)

/-- `offset_bytes` of `serializeToBoc`. -/
def bocOffsetBytes (cell : Cell) : Nat :=
  max ((bitLen (bocFullSize cell) + 7) / 8) 1

/-- The flag byte of `serializeToBoc` (line 411): `has_idx << 7 |
hash_crc32 << 6 | has_cache_bits << 5 | flags << 3 | s_bytes`.  For the
in-range values (`flags ≤ 3`, `s_bytes ≤ 7`) the ORs of disjoint bit
ranges equal this sum; the byte store truncates. -/
def bocFlagByte (has_idx hash_crc32 has_cache_bits : Bool) (flags sBytes : Nat) : Nat :=
  ((if has_idx then 1 else 0) * 128 + (if hash_crc32 then 1 else 0) * 64 +
   (if has_cache_bits then 1 else 0) * 32 + flags * 8 + sBytes) % 256

/-- The concatenated cell records of `serializeToBoc`'s final loop. -/
def bocRecords (cell : Cell) : List Nat :=
  concatMap (fun p => serializeForBoc p.1 p.2 (bocSBytes cell)) (bocAllCells cell)

/-- Everything `serializeToBoc` emits before the optional CRC trailer:
magic, flag byte, `offset_bytes`, the three `s_bytes`-wide counts
(`cells_num`, roots = 1, absent = 0), `full_size`, the root index 0, the
optional index, the records. -/
def bocBody (cell : Cell) (has_idx hash_crc32 has_cache_bits : Bool) (flags : Nat) :
    List Nat :=
  reachBocMagic ++
  [bocFlagByte has_idx hash_crc32 has_cache_bits flags (bocSBytes cell)] ++
  [bocOffsetBytes cell % 256] ++
  writeNumber (bocAllCells cell).length (bocSBytes cell) ++
  writeNumber 1 (bocSBytes cell) ++
  writeNumber 0 (bocSBytes cell) ++
  writeNumber (bocFullSize cell) (bocOffsetBytes cell) ++
  writeNumber 0 (bocSBytes cell) ++
  (if has_idx then concatMap (fun off => writeNumber off (bocOffsetBytes cell))
                     (bocSizeIndex cell)
   else []) ++
  bocRecords cell

/-- `serializeToBoc` (boc.ts lines 379-444).  The source's defaults are
`has_idx = true, hash_crc32 = true, has_cache_bits = false, flags = 0`;
they are passed explicitly here.  When CRC is requested the source
computes CRC32C over the whole buffer except its zero-filled last four
bytes and writes it there, i.e. appends `crc32c` of the body.  The
`inCache` wrapper is semantically the identity on this pure model; it is
modelled explicitly in the store model (claim C9). -/
def serializeToBoc (cell : Cell) (has_idx hash_crc32 has_cache_bits : Bool)
    (flags : Nat) : List Nat :=
  bocBody cell has_idx hash_crc32 has_cache_bits flags ++
    (if hash_crc32 then crc32c (bocBody cell has_idx hash_crc32 has_cache_bits flags)
     else [])

/-! ## A boolean "for every cell of the graph" and its propagation -/

mutual
/-- `p` holds of every cell of the tree. -/
def cellAllB (p : Cell → Bool) : Cell → Bool
  | Cell.mk k b rs => p (Cell.mk k b rs) && cellAllBList p rs
/-- `p` holds of every cell of every tree of the list. -/
def cellAllBList (p : Cell → Bool) : List Cell → Bool
  | [] => true
  | c :: cs => cellAllB p c && cellAllBList p cs
end

/-! ## Size bounds for the serializer -/

/-- The per-cell well-formedness the round-trip claims assume: at most 7
references (the descriptor reserves 3 bits) and a payload fitting the
one-byte bits descriptor. -/
def cellFitB (d : Cell) : Bool :=
  decide (d.refs.length ≤ 7) && decide (getBitsDescriptor d ≤ 255)

/-- The `size_bytes` value the header's first five bytes determine (0 when
the magic is unknown). -/
def headerSizeBytes (input : List Nat) : Nat :=
  match decodeMagicFlags (input.take 4) ((input.drop 4).headD 0) with
  | some (_, _, _, _, sb) => sb
  | none => 0

/-- The `offset_bytes` byte of the input (byte 5). -/
def headerOffsetByte (input : List Nat) : Nat := (input.drop 5).headD 0

/-! ## Store model for the cache context (claim C9)

`boc.ts` keeps a module-global `cacheContext : symbol | null`.  The
wrapper `inCache` creates a fresh symbol when the context is `null`
(`wasCreated`), runs its handler, and tears the context down again in
the `finally` block.  Per-cell caches (`CellCache`, holding an optional
hash and an optional maxDepth) live as symbol-keyed properties on the
mutable `Cell` objects; a fresh symbol therefore means every cell starts
with an empty cache.

To talk about mutation of cells between top-level calls, cells here
live in an explicit heap: a `Store` is a list of `StoredCell`s whose
references are indices into the same store.  Mutating a cell's payload
or refs between two calls is passing a different store to the second
call.  Acyclicity of the heap (which the JS code needs for termination)
is taken in the orientation `wfStoreB`: every reference of the cell at
position `i` points strictly below `i`.  The cache context becomes
`Option (Nat → CellCache)`: `none` is `cacheContext === null`, and a
fresh context is the everywhere-empty table (symbol-keyed property
lookup on a fresh symbol misses on every cell).  All recursions carry
fuel; `i + 1` units suffice below position `i` on a well-formed store. -/

/-- A cell as a record in the mutable heap: its refs are store indices. -/
structure StoredCell where
  kind : CellKind
  bits : List Bool
  refs : List Nat
deriving DecidableEq, Repr

/-- `CellCache` (boc.ts): the per-cell memo attached under the context
symbol, both fields `null` when freshly created. -/
structure CellCache where
  hash : Option (List Nat)
  maxDepth : Option Nat
deriving DecidableEq, Repr

/-- A freshly created cache entry (`{ hash: null, maxDepth: null }`). -/
def emptyCache : CellCache := { hash := none, maxDepth := none }

/-- Placeholder content for an out-of-range store read. -/
def defaultStored : StoredCell := { kind := CellKind.ordinary, bits := [], refs := [] }

/-- Read the heap at index `i`. -/
def storedAt (store : List StoredCell) (i : Nat) : StoredCell :=
  store.getD i defaultStored

/-- Acyclicity of the heap: every reference of the cell at position `i`
points strictly below `i`. -/
def wfStoreB (store : List StoredCell) : Bool :=
  (List.range store.length).all
    (fun i => (storedAt store i).refs.all (fun r => decide (r < i)))

/-- Read the cell tree rooted at store index `i` out of the heap
(fuel-bounded; `i + 1` units suffice on a well-formed store). -/
def resolveCell (store : List StoredCell) : Nat → Nat → Cell
  | 0, _ => Cell.mk CellKind.ordinary [] []
  | fuel + 1, i =>
      Cell.mk (storedAt store i).kind (storedAt store i).bits
        (List.map (resolveCell store fuel) (storedAt store i).refs)

/-- The current content of the cell at store index `i`, as a cell tree. -/
def cellOf (store : List StoredCell) (i : Nat) : Cell :=
  resolveCell store (i + 1) i

/-- Write a `maxDepth` memo into the cache table (`cache.maxDepth = maxDepth`). -/
def updateDepth (tbl : Nat → CellCache) (i d : Nat) : Nat → CellCache :=
  fun j => if j = i then { hash := (tbl i).hash, maxDepth := some d } else tbl j

/-- Write a `hash` memo into the cache table (`cache.hash = r`). -/
def updateHash (tbl : Nat → CellCache) (i : Nat) (h : List Nat) : Nat → CellCache :=
  fun j => if j = i then { hash := some h, maxDepth := (tbl i).maxDepth } else tbl j

/-- `getMaxDepth` (boc.ts) inside an existing cache context: return the
memo if present, otherwise fold the children (the `for` loop keeps a
running maximum; the second, cache-hitting call of the comparison
returns the identical value), add one when there is at least one child,
and store the memo. -/
def getMaxDepthS (store : List StoredCell) :
    Nat → Nat → (Nat → CellCache) → Nat × (Nat → CellCache)
  | 0, _, tbl => (0, tbl)
  | fuel + 1, i, tbl =>
      match (tbl i).maxDepth with
      | some d => (d, tbl)
      | none =>
          let p :=
            if (storedAt store i).refs.length > 0 then
              let q := List.foldl
                  (fun acc r =>
                    let s := getMaxDepthS store fuel r acc.2
                    (max acc.1 s.1, s.2))
                  (0, tbl) (storedAt store i).refs
              (q.1 + 1, q.2)
            else (0, tbl)
          (p.1, updateDepth p.2 i p.1)

/-- `hashCell` (boc.ts) inside an existing cache context: return the
memo if present, otherwise build `getRepr` of the current heap content
(descriptors, top-upped payload, children's big-endian depths via the
cached `getMaxDepth`, children's hashes via the cached `hashCell`),
digest it, and store the memo. -/
def hashCellS (store : List StoredCell) :
    Nat → Nat → (Nat → CellCache) → List Nat × (Nat → CellCache)
  | 0, _, tbl => ([], tbl)
  | fuel + 1, i, tbl =>
      match (tbl i).hash with
      | some h => (h, tbl)
      | none =>
          let sc := storedAt store i
          let dp := List.foldl
              (fun acc r =>
                let s := getMaxDepthS store fuel r acc.2
                (acc.1 ++ [s.1 / 256 % 256, s.1 % 256], s.2))
              (([] : List Nat), tbl) sc.refs
          let hs := List.foldl
              (fun acc r =>
                let s := hashCellS store fuel r acc.2
                (acc.1 ++ s.1, s.2))
              (([] : List Nat), dp.2) sc.refs
          let d1 := (sc.refs.length + (if sc.kind != CellKind.ordinary then 1 else 0) * 8) % 256
          let d2 := ((sc.bits.length + (if sc.kind != CellKind.ordinary then 8 else 0) + 7) / 8 +
              (sc.bits.length + (if sc.kind != CellKind.ordinary then 8 else 0)) / 8) % 256
          let r := sha256 (d1 :: d2 :: (writeTopUppedArray sc.bits ++ dp.1 ++ hs.1))
          (r, updateHash hs.2 i r)

/-- The exported `getMaxDepth`, i.e. its `inCache` wrapper: create a
fresh (empty) context when there is none and tear it down at the end,
otherwise run inside — and mutate — the existing context. -/
def topGetMaxDepth (store : List StoredCell) (fuel i : Nat)
    (ctx : Option (Nat → CellCache)) : Nat × Option (Nat → CellCache) :=
  match ctx with
  | none => ((getMaxDepthS store fuel i (fun _ => emptyCache)).1, none)
  | some tbl =>
      let s := getMaxDepthS store fuel i tbl
      (s.1, some s.2)

/-- The exported `hashCell`, i.e. its `inCache` wrapper. -/
def topHashCell (store : List StoredCell) (fuel i : Nat)
    (ctx : Option (Nat → CellCache)) : List Nat × Option (Nat → CellCache) :=
  match ctx with
  | none => ((hashCellS store fuel i (fun _ => emptyCache)).1, none)
  | some tbl =>
      let s := hashCellS store fuel i tbl
      (s.1, some s.2)

/-- The exported `serializeToBoc`: its `inCache` handler never touches
the cache table, so the wrapper leaves an existing context unchanged
and a created one is torn down again; the produced bytes are those of
the pure serializer on the current heap content. -/
def topSerializeToBoc (store : List StoredCell) (fuel i : Nat)
    (has_idx hash_crc32 has_cache_bits : Bool) (flags : Nat)
    (ctx : Option (Nat → CellCache)) : List Nat × Option (Nat → CellCache) :=
  (serializeToBoc (resolveCell store fuel i) has_idx hash_crc32 has_cache_bits flags, ctx)

/-- A top-level call: each carries the heap as seen at that moment (two
ops carrying different stores model mutation between the calls). -/
inductive TopOp where
  | depth (store : List StoredCell) (i : Nat)
  | hash (store : List StoredCell) (i : Nat)
  | serialize (store : List StoredCell) (i : Nat)
      (has_idx hash_crc32 has_cache_bits : Bool) (flags : Nat)
deriving Repr

/-- Run one top-level call against the module-global context (depth
results are returned as a singleton byte list to share one result
type). -/
def runTopOp : TopOp → Option (Nat → CellCache) → List Nat × Option (Nat → CellCache)
  | TopOp.depth s i, ctx =>
      let r := topGetMaxDepth s (i + 1) i ctx
      ([r.1], r.2)
  | TopOp.hash s i, ctx => topHashCell s (i + 1) i ctx
  | TopOp.serialize s i a b c f, ctx => topSerializeToBoc s (i + 1) i a b c f ctx

/-- Run a sequence of top-level calls, threading the global context. -/
def runTopOps : List TopOp → Option (Nat → CellCache) →
    List (List Nat) × Option (Nat → CellCache)
  | [], ctx => ([], ctx)
  | op :: ops, ctx =>
      let r := runTopOp op ctx
      let rest := runTopOps ops r.2
      (r.1 :: rest.1, rest.2)

/-- The pure, history-free meaning of a top-level call: the pure
function of the heap content that call was given. -/
def pureResult : TopOp → List Nat
  | TopOp.depth s i => [getMaxDepth (cellOf s i)]
  | TopOp.hash s i => hashCell (cellOf s i)
  | TopOp.serialize s i a b c f => serializeToBoc (cellOf s i) a b c f

/-- Well-formedness of the heap an op carries. -/
def opWF : TopOp → Bool
  | TopOp.depth s _ => wfStoreB s
  | TopOp.hash s _ => wfStoreB s
  | TopOp.serialize s _ _ _ _ _ => wfStoreB s

/-- Every cached entry of a table is the true value of the current heap
content (memoization invariant). -/
def tblOK (store : List StoredCell) (tbl : Nat → CellCache) : Prop :=
  ∀ j, ((tbl j).maxDepth = none ∨ (tbl j).maxDepth = some (getMaxDepth (cellOf store j))) ∧
       ((tbl j).hash = none ∨ (tbl j).hash = some (hashCell (cellOf store j)))

/-! ## Supporting definitions and lemmas for the claim statements -/

/-- The empty ordinary cell: no payload bits, no references. -/
def emptyCell : Cell := Cell.mk CellKind.ordinary [] []

/-- The canonical representation exactly as the specification words it:
byte0 is refs-count + 8·(1 if exotic else 0) + 32·max_level; byte1 is
`ceil(used_bits / 8) + floor(used_bits / 8)` with `used_bits` counting 8
extra bits for the exotic-type byte; then the top-upped payload, the
children's big-endian 16-bit max depths in ref order, and the children's
32-byte hashes in ref order.  Each of the two descriptor bytes passes
through a byte store, hence the `% 256`. -/
def reprSpec (c : Cell) : List Nat :=
  (c.refs.length + 8 * (if c.isExotic then 1 else 0) + 32 * getMaxLevel c) % 256 ::
    ((c.bits.length + (if c.isExotic then 8 else 0) + 7) / 8 +
      (c.bits.length + (if c.isExotic then 8 else 0)) / 8) % 256 ::
    (writeTopUppedArray c.bits ++
      concatMap (fun r => writeNumber (getMaxDepth r) 2) c.refs ++
      concatMap hashCell c.refs)

/-! ## The degenerate exotic record (`d2 = 0`) -/

/-- An exotic record with `d2 = 0`: the payload is everything of the
remainder except its final byte (here `[10]`) and the reference index is
read from that final byte (here 11), per the negative `subarray`
semantics of the source's `dataBytesize--`. -/
theorem deserializeCellData_exotic_zero :
    deserializeCellData [9, 0, 1, 10, 11] 1 =
      .ok ((CellKind.pruned, bytesToBits [10]), [11], []) := by
  decide

/-- Record 1 of this container is an exotic `d2 = 0` record whose final
byte — its reference index — is 1, a self-reference: the linking pass
accepts it and the container deserializes, as the program does. -/
theorem deserializeBoc_exotic_zero_selfRef :
    deserializeBoc [181, 238, 156, 114, 1, 1, 2, 1, 0, 7, 0, 0, 0, 9, 0, 1, 0, 1] =
      .ok [some (Cell.mk CellKind.ordinary [] [])] := by
  decide

/-- The same container with the last two data bytes swapped: record 1's
reference index (its final byte) is now 0 < 1, and the linking pass
reports the broken topological order, as the program does. -/
theorem deserializeBoc_exotic_zero_broken :
    deserializeBoc [181, 238, 156, 114, 1, 1, 2, 1, 0, 7, 0, 0, 0, 9, 0, 1, 1, 0] =
      .error .brokenTopoOrder := by
  decide

/-! ## The claims -/

/-- Heaps and ops for the C9 witness: the second heap is the first with
cell 0's payload mutated between two top-level calls. -/
def c9storeA : List StoredCell :=
  [{ kind := CellKind.ordinary, bits := [], refs := [] },
   { kind := CellKind.ordinary, bits := [], refs := [0] }]

/-- The mutated heap: cell 0's payload has changed. -/
def c9storeB : List StoredCell :=
  [{ kind := CellKind.ordinary, bits := [true], refs := [] },
   { kind := CellKind.ordinary, bits := [], refs := [0] }]

/-- An interleaving of top-level calls with a mutation in the middle. -/
def c9ops : List TopOp :=
  [TopOp.hash c9storeA 1, TopOp.depth c9storeA 1,
   TopOp.serialize c9storeA 1 false false false 0,
   TopOp.hash c9storeB 1, TopOp.hash c9storeA 1]

/-! ## Hash/Depth engine (boc.ts lines 49-123) -/

theorem hashCell_eq (c : Cell) : hashCell c = sha256 (getRepr c) := by
  cases c
  rfl

/-! ## Basic lemmas: byte writes and reads -/

theorem concatMap_append (f : α → List β) (l1 l2 : List α) :
    concatMap f (l1 ++ l2) = concatMap f l1 ++ concatMap f l2 := by
  induction l1 with
  | nil => rfl
  | cons a as ih => simp [concatMap, ih]

theorem length_writeNumber (n k : Nat) : (writeNumber n k).length = k := by
  simp [writeNumber]

theorem writeNumber_succ (n k : Nat) :
    writeNumber n (k + 1) = (n / 256 ^ k % 256) :: writeNumber n k := by
  unfold writeNumber
  rw [List.range_succ_eq_map]
  simp only [List.map_cons, List.map_map]
  congr 1
  norm_num
  intro a ha
  congr 3
  omega

theorem digit_mod (n m k : Nat) (h : m < k) :
    n % 256 ^ k / 256 ^ m % 256 = n / 256 ^ m % 256 := by
  have h1 : (256 : Nat) ^ k = 256 ^ m * 256 ^ (k - m) := by
    rw [← pow_add]
    congr 1
    omega
  rw [h1, Nat.mod_mul_right_div_self, Nat.mod_mod_of_dvd _ (dvd_pow_self 256 (by omega))]

theorem writeNumber_mod (n k : Nat) : writeNumber (n % 256 ^ k) k = writeNumber n k := by
  unfold writeNumber
  apply List.map_congr_left
  intro i hi
  rw [List.mem_range] at hi
  exact digit_mod n (k - 1 - i) k (by omega)

theorem read_foldl_writeNumber :
    ∀ (k n a : Nat), n < 256 ^ k →
      (writeNumber n k).foldl (fun res b => res * 256 + b) a = a * 256 ^ k + n
  | 0, n, a, h => by
    have : n = 0 := by simpa using h
    simp [writeNumber, this]
  | k + 1, n, a, h => by
    rw [writeNumber_succ, List.foldl_cons, ← writeNumber_mod n k,
      read_foldl_writeNumber k (n % 256 ^ k) _ (Nat.mod_lt _ (by positivity))]
    have hdm := Nat.div_add_mod n (256 ^ k)
    have hlt : n / 256 ^ k < 256 := by
      rw [Nat.div_lt_iff_lt_mul (by positivity), mul_comm, ← pow_succ]
      exact h
    rw [Nat.mod_eq_of_lt hlt]
    calc (a * 256 + n / 256 ^ k) * 256 ^ k + n % 256 ^ k
        = a * (256 ^ k * 256) + (256 ^ k * (n / 256 ^ k) + n % 256 ^ k) := by ring
      _ = a * 256 ^ (k + 1) + n := by rw [hdm, pow_succ]

theorem readN_writeNumber (n k : Nat) (rest : List Nat) (h : n < 256 ^ k) :
    readNBytesUIntFromArray k (writeNumber n k ++ rest) = some n := by
  unfold readNBytesUIntFromArray
  rw [if_neg (by simp [length_writeNumber])]
  rw [List.take_left' (length_writeNumber n k), read_foldl_writeNumber k n 0 h]
  simp

theorem drop_writeNumber (n k : Nat) (rest : List Nat) :
    (writeNumber n k ++ rest).drop k = rest :=
  List.drop_left' (length_writeNumber n k)

theorem readIntList_concat (w : Nat) :
    ∀ (vals : List Nat) (rest : List Nat), (∀ v ∈ vals, v < 256 ^ w) →
      readIntList vals.length w (concatMap (fun v => writeNumber v w) vals ++ rest) =
        .ok vals
  | [], _, _ => rfl
  | v :: vs, rest, h => by
    have hv := h v (by simp)
    simp only [concatMap, List.length_cons, List.append_assoc]
    rw [readIntList, readN_writeNumber _ _ _ hv, drop_writeNumber,
      readIntList_concat w vs rest (fun x hx => h x (by simp [hx]))]

theorem readIntList_no_oob :
    ∀ (count w : Nat) (arr : List Nat), count * w ≤ arr.length →
      ∃ l, readIntList count w arr = .ok l ∧ l.length = count
  | 0, _, _, _ => ⟨[], rfl, rfl⟩
  | count + 1, w, arr, h => by
    have hsucc : (count + 1) * w = count * w + w := by ring
    have hw : ¬ arr.length < w := by omega
    obtain ⟨l, hl, hlen⟩ := readIntList_no_oob count w (arr.drop w) (by
      simp only [List.length_drop]
      omega)
    refine ⟨(arr.take w).foldl (fun res b => res * 256 + b) 0 :: l, ?_, ?_⟩
    · rw [readIntList]
      unfold readNBytesUIntFromArray
      rw [if_neg hw, hl]
    · simp [hlen]

/-! ## Basic lemmas: bit packing -/

theorem byteBits_byteOfBits (b1 b2 b3 b4 b5 b6 b7 b8 : Bool) :
    byteBits (byteOfBits [b1, b2, b3, b4, b5, b6, b7, b8]) =
      [b1, b2, b3, b4, b5, b6, b7, b8] := by
  revert b1 b2 b3 b4 b5 b6 b7 b8
  decide

theorem bytesToBits_cons (b : Nat) (l : List Nat) :
    bytesToBits (b :: l) = byteBits b ++ bytesToBits l := rfl

theorem bytesToBits_bitsToBytes :
    ∀ l : List Bool, l.length % 8 = 0 → bytesToBits (bitsToBytes l) = l
  | [], _ => rfl
  | b1 :: b2 :: b3 :: b4 :: b5 :: b6 :: b7 :: b8 :: rest, h => by
    rw [bitsToBytes, bytesToBits_cons, byteBits_byteOfBits,
      bytesToBits_bitsToBytes rest (by simp only [List.length_cons] at h; omega)]
    rfl
  | [_], h => by simp at h
  | [_, _], h => by simp at h
  | [_, _, _], h => by simp at h
  | [_, _, _, _], h => by simp at h
  | [_, _, _, _, _], h => by simp at h
  | [_, _, _, _, _, _], h => by simp at h
  | [_, _, _, _, _, _, _], h => by simp at h

theorem length_bitsToBytes :
    ∀ l : List Bool, l.length % 8 = 0 → (bitsToBytes l).length = l.length / 8
  | [], _ => rfl
  | b1 :: b2 :: b3 :: b4 :: b5 :: b6 :: b7 :: b8 :: rest, h => by
    rw [bitsToBytes]
    simp only [List.length_cons]
    rw [length_bitsToBytes rest (by simp only [List.length_cons] at h; omega)]
    simp only [List.length_cons] at h
    omega
  | [_], h => by simp at h
  | [_, _], h => by simp at h
  | [_, _, _], h => by simp at h
  | [_, _, _, _], h => by simp at h
  | [_, _, _, _, _], h => by simp at h
  | [_, _, _, _, _, _], h => by simp at h
  | [_, _, _, _, _, _, _], h => by simp at h

theorem length_topUp_mod (bits : List Bool) : (topUp bits).length % 8 = 0 := by
  unfold topUp
  split
  · assumption
  · simp only [List.length_append, List.length_cons, List.length_replicate]
    omega

theorem length_topUp (bits : List Bool) :
    (topUp bits).length = 8 * getTopUppedLength bits := by
  unfold topUp getTopUppedLength
  split
  · omega
  · simp only [List.length_append, List.length_cons, List.length_replicate]
    omega

theorem length_writeTopUppedArray (bits : List Bool) :
    (writeTopUppedArray bits).length = getTopUppedLength bits := by
  unfold writeTopUppedArray
  rw [length_bitsToBytes _ (length_topUp_mod bits), length_topUp]
  omega

theorem dropWhile_replicate_false (l : List Bool) :
    ∀ m : Nat, List.dropWhile (fun b => b == false) (List.replicate m false ++ l) =
      List.dropWhile (fun b => b == false) l
  | 0 => rfl
  | m + 1 => by
    rw [List.replicate_succ, List.cons_append, List.dropWhile_cons_of_pos (by simp),
      dropWhile_replicate_false l m]

theorem fromTopUpped_writeTopUpped (bits : List Bool) (fb : Bool)
    (hfb : fb = (bits.length % 8 == 0)) :
    fromTopUppedArray (writeTopUppedArray bits) fb = bits := by
  subst hfb
  unfold fromTopUppedArray writeTopUppedArray
  rw [bytesToBits_bitsToBytes _ (length_topUp_mod bits)]
  by_cases h : bits.length % 8 = 0
  · rw [if_pos (by simpa using h)]
    unfold topUp
    rw [if_pos h]
  · rw [if_neg (by simpa using h)]
    unfold topUp dropPadding
    rw [if_neg h]
    simp only [List.reverse_append, List.reverse_cons, List.reverse_replicate]
    rw [List.append_assoc, List.singleton_append, dropWhile_replicate_false,
      List.dropWhile_cons_of_neg (by simp)]
    simp

/-! ## Basic lemmas: bit length -/

theorem bitLenAux_zero : ∀ fuel : Nat, bitLenAux fuel 0 = 0
  | 0 => rfl
  | _ + 1 => rfl

theorem bitLenAux_le_iff :
    ∀ (fuel n : Nat), n ≤ fuel → n ≠ 0 → ∀ b, (bitLenAux fuel n ≤ b ↔ n < 2 ^ b)
  | 0, n, hle, hne, _ => by omega
  | fuel + 1, n, hle, hne, b => by
    rw [bitLenAux, if_neg hne]
    by_cases h2 : n / 2 = 0
    · have hn1 : n = 1 := by omega
      subst hn1
      rw [h2, bitLenAux_zero]
      simp only [Nat.zero_add]
      rw [Nat.one_lt_two_pow_iff]
      omega
    · have ih := bitLenAux_le_iff fuel (n / 2) (by omega) h2
      cases b with
      | zero =>
        simp only [Nat.pow_zero]
        omega
      | succ b =>
        rw [Nat.add_le_add_iff_right, ih b, pow_succ,
          Nat.div_lt_iff_lt_mul (by omega)]

theorem bitLen_le_iff (n b : Nat) (hn : n ≠ 0) : bitLen n ≤ b ↔ n < 2 ^ b := by
  unfold bitLen
  rw [if_neg hn]
  exact bitLenAux_le_iff n n le_rfl hn b

theorem lt_two_pow_bitLen (n : Nat) : n < 2 ^ bitLen n := by
  by_cases hn : n = 0
  · subst hn
    simp [bitLen]
  · exact (bitLen_le_iff n (bitLen n) hn).1 le_rfl

theorem bitLen_pos (n : Nat) : 1 ≤ bitLen n := by
  by_cases hn : n = 0
  · simp [hn, bitLen]
  · by_contra h
    have hb : bitLen n ≤ 0 := by omega
    have := (bitLen_le_iff n 0 hn).1 hb
    simp at this
    omega

theorem bitLen_mono {n m : Nat} (h : n ≤ m) : bitLen n ≤ bitLen m := by
  by_cases hn : n = 0
  · subst hn
    simp only [bitLen, if_pos rfl]
    exact bitLen_pos m
  · exact (bitLen_le_iff n _ hn).2 (lt_of_le_of_lt h (lt_two_pow_bitLen m))

theorem lt_256_pow_width (n m : Nat) (h : n ≤ m) :
    n < 256 ^ max ((bitLen m + 7) / 8) 1 := by
  have h1 : bitLen n ≤ 8 * max ((bitLen m + 7) / 8) 1 := by
    have := bitLen_mono h
    omega
  calc n < 2 ^ bitLen n := lt_two_pow_bitLen n
    _ ≤ 2 ^ (8 * max ((bitLen m + 7) / 8) 1) := Nat.pow_le_pow_right (by omega) h1
    _ = 256 ^ max ((bitLen m + 7) / 8) 1 := by
        rw [pow_mul]
        norm_num

theorem width_le_of_lt (m b : Nat) (h : m < 2 ^ (8 * b)) (hb : 1 ≤ b) :
    max ((bitLen m + 7) / 8) 1 ≤ b := by
  by_cases hm : m = 0
  · subst hm
    have h0 : bitLen 0 = 1 := rfl
    rw [h0]
    omega
  · have := (bitLen_le_iff m (8 * b) hm).2 h
    omega

/-! ## Facts about the linearizer -/

theorem cellCount_pos : ∀ c : Cell, 1 ≤ cellCount c
  | Cell.mk _ _ rs => by
    rw [cellCount]
    omega

theorem length_childPositions :
    ∀ (rs : List Cell) (pos : Nat), (childPositions rs pos).length = rs.length
  | [], _ => rfl
  | c :: cs, pos => by
    rw [childPositions]
    simp [length_childPositions cs]

theorem childPositions_bound :
    ∀ (rs : List Cell) (pos : Nat), ∀ r ∈ childPositions rs pos,
      pos ≤ r ∧ r < pos + cellCountList rs
  | [], _, r, hr => by simp [childPositions] at hr
  | c :: cs, pos, r, hr => by
    rw [childPositions] at hr
    rcases List.mem_cons.1 hr with h | h
    · subst h
      have := cellCount_pos c
      rw [cellCountList]
      omega
    · have := childPositions_bound cs (pos + cellCount c) r h
      rw [cellCountList]
      omega

mutual
theorem length_preCells : ∀ c : Cell, (preCells c).length = cellCount c
  | Cell.mk k b rs => by
    rw [preCells, cellCount]
    simp only [List.length_cons]
    rw [length_preCellsList rs]
    omega
theorem length_preCellsList : ∀ cs : List Cell, (preCellsList cs).length = cellCountList cs
  | [] => rfl
  | c :: cs => by
    rw [preCellsList, cellCountList]
    simp only [List.length_append]
    rw [length_preCells c, length_preCellsList cs]
end

mutual
theorem length_topoAux : ∀ (c : Cell) (pos : Nat), (topoAux c pos).length = cellCount c
  | Cell.mk k b rs, pos => by
    rw [topoAux, cellCount]
    simp only [List.length_cons]
    rw [length_topoAuxList rs]
    omega
theorem length_topoAuxList :
    ∀ (cs : List Cell) (pos : Nat), (topoAuxList cs pos).length = cellCountList cs
  | [], _ => rfl
  | c :: cs, pos => by
    rw [topoAuxList, cellCountList]
    simp only [List.length_append]
    rw [length_topoAux c, length_topoAuxList cs]
end

mutual
theorem topoAux_map_fst : ∀ (c : Cell) (pos : Nat),
    (topoAux c pos).map Prod.fst = preCells c
  | Cell.mk k b rs, pos => by
    rw [topoAux, preCells]
    simp only [List.map_cons]
    rw [topoAuxList_map_fst rs]
theorem topoAuxList_map_fst : ∀ (cs : List Cell) (pos : Nat),
    (topoAuxList cs pos).map Prod.fst = preCellsList cs
  | [], _ => rfl
  | c :: cs, pos => by
    rw [topoAuxList, preCellsList]
    simp only [List.map_append]
    rw [topoAux_map_fst c, topoAuxList_map_fst cs]
end

mutual
theorem topoAux_pos_bound : ∀ (c : Cell) (pos : Nat), ∀ q ∈ topoAux c pos,
    ∀ r ∈ q.2, pos < r ∧ r < pos + cellCount c
  | Cell.mk k b rs, pos, q, hq, r, hr => by
    rw [topoAux] at hq
    rw [cellCount]
    rcases List.mem_cons.1 hq with h | h
    · subst h
      have := childPositions_bound rs (pos + 1) r hr
      omega
    · have := topoAuxList_pos_bound rs (pos + 1) q h r hr
      omega
theorem topoAuxList_pos_bound : ∀ (cs : List Cell) (pos : Nat), ∀ q ∈ topoAuxList cs pos,
    ∀ r ∈ q.2, pos ≤ r ∧ r < pos + cellCountList cs
  | [], _, q, hq, _, _ => by simp [topoAuxList] at hq
  | c :: cs, pos, q, hq, r, hr => by
    rw [topoAuxList] at hq
    rw [cellCountList]
    rcases List.mem_append.1 hq with h | h
    · have := topoAux_pos_bound c pos q h r hr
      omega
    · have := topoAuxList_pos_bound cs (pos + cellCount c) q h r hr
      omega
end

mutual
theorem topoAux_snd_length : ∀ (c : Cell) (pos : Nat), ∀ q ∈ topoAux c pos,
    q.2.length = q.1.refs.length
  | Cell.mk k b rs, pos, q, hq => by
    rw [topoAux] at hq
    rcases List.mem_cons.1 hq with h | h
    · subst h
      simp [Cell.refs, length_childPositions]
    · exact topoAuxList_snd_length rs (pos + 1) q h
theorem topoAuxList_snd_length : ∀ (cs : List Cell) (pos : Nat), ∀ q ∈ topoAuxList cs pos,
    q.2.length = q.1.refs.length
  | [], _, q, hq => by simp [topoAuxList] at hq
  | c :: cs, pos, q, hq => by
    rw [topoAuxList] at hq
    rcases List.mem_append.1 hq with h | h
    · exact topoAux_snd_length c pos q h
    · exact topoAuxList_snd_length cs (pos + cellCount c) q h
end

/-! ## A boolean "for every cell of the graph" and its propagation -/

theorem cellAllB_self (p : Cell → Bool) : ∀ c : Cell, cellAllB p c = true → p c = true
  | Cell.mk k b rs, h => by
    rw [cellAllB] at h
    exact (Bool.and_eq_true .. ▸ h).1

mutual
theorem topoAux_all (p : Cell → Bool) : ∀ (c : Cell) (pos : Nat), cellAllB p c = true →
    ∀ q ∈ topoAux c pos, cellAllB p q.1 = true
  | Cell.mk k b rs, pos, hall, q, hq => by
    rw [topoAux] at hq
    rcases List.mem_cons.1 hq with h | h
    · subst h
      exact hall
    · rw [cellAllB, Bool.and_eq_true] at hall
      exact topoAuxList_all p rs (pos + 1) hall.2 q h
theorem topoAuxList_all (p : Cell → Bool) : ∀ (cs : List Cell) (pos : Nat),
    cellAllBList p cs = true → ∀ q ∈ topoAuxList cs pos, cellAllB p q.1 = true
  | [], _, _, q, hq => by simp [topoAuxList] at hq
  | c :: cs, pos, hall, q, hq => by
    rw [topoAuxList] at hq
    rw [cellAllBList, Bool.and_eq_true] at hall
    rcases List.mem_append.1 hq with h | h
    · exact topoAux_all p c pos hall.1 q h
    · exact topoAuxList_all p cs (pos + cellCount c) hall.2 q h
end

/-! ## Descriptor arithmetic -/

theorem length_concatMap_writeNumber (s : Nat) :
    ∀ vals : List Nat, (concatMap (fun v => writeNumber v s) vals).length = vals.length * s
  | [] => by simp [concatMap]
  | v :: vs => by
    rw [concatMap]
    simp only [List.length_append, List.length_cons, length_writeNumber]
    rw [length_concatMap_writeNumber s vs]
    ring

theorem getRefsDescriptor_le (c : Cell) (h7 : c.refs.length ≤ 7) :
    getRefsDescriptor c ≤ 15 := by
  unfold getRefsDescriptor getMaxLevel
  split <;> omega

theorem getRefsDescriptor_refNum (c : Cell) (h7 : c.refs.length ≤ 7) :
    getRefsDescriptor c % 8 = c.refs.length := by
  unfold getRefsDescriptor getMaxLevel
  split <;> omega

theorem getRefsDescriptor_exotic (c : Cell) (h7 : c.refs.length ≤ 7) :
    getRefsDescriptor c / 8 % 2 = if c.isExotic then 1 else 0 := by
  unfold getRefsDescriptor getMaxLevel
  split <;> omega

theorem bitsDesc_dataBytesize (x : Nat) : ((x + 7) / 8 + x / 8 + 1) / 2 = (x + 7) / 8 := by
  omega

theorem bitsDesc_parity (x : Nat) : ((x + 7) / 8 + x / 8) % 2 = 0 ↔ x % 8 = 0 := by
  omega

/-! ## Record codec round trip -/

theorem fromTopUpped_writeTopUpped2 (bits : List Bool) (fb : Bool)
    (hfb : fb = true ↔ bits.length % 8 = 0) :
    fromTopUppedArray (writeTopUppedArray bits) fb = bits := by
  apply fromTopUpped_writeTopUpped
  rw [Bool.eq_iff_iff, hfb]
  simp

theorem isExotic_false_kind (c : Cell) (h : c.isExotic = false) :
    c.kind = CellKind.ordinary := by
  unfold Cell.isExotic at h
  simpa using h

theorem length_serializeForBoc (c : Cell) (refs : List Nat) (s : Nat)
    (hrl : refs.length = c.refs.length) :
    (serializeForBoc c refs s).length = calcCellSerializedSize c s := by
  unfold serializeForBoc calcCellSerializedSize
  simp only [List.length_cons, List.length_append, length_writeTopUppedArray,
    length_concatMap_writeNumber, hrl]
  split <;> simp <;> omega

theorem deserializeCellData_serializeForBoc (c : Cell) (refs : List Nat) (s : Nat)
    (rest : List Nat) (h7 : c.refs.length ≤ 7) (hrl : refs.length = c.refs.length)
    (hd2 : getBitsDescriptor c ≤ 255) (hrefs : ∀ r ∈ refs, r < 256 ^ s) :
    deserializeCellData (serializeForBoc c refs s ++ rest) s =
      .ok ((c.kind, c.bits), refs, rest) := by
  have hd1 : getRefsDescriptor c % 256 = getRefsDescriptor c :=
    Nat.mod_eq_of_lt (by have := getRefsDescriptor_le c h7; omega)
  have hd2m : getBitsDescriptor c % 256 = getBitsDescriptor c :=
    Nat.mod_eq_of_lt (by omega)
  have hrefNum : getRefsDescriptor c % 8 = c.refs.length := getRefsDescriptor_refNum c h7
  have harith : (getBitsDescriptor c + 1) / 2 =
      getTopUppedLength c.bits + (if c.isExotic then 1 else 0) := by
    unfold getBitsDescriptor getTopUppedLength
    split <;> omega
  have hfb : ((getBitsDescriptor c % 2 == 0) = true) ↔ c.bits.length % 8 = 0 := by
    rw [beq_iff_eq]
    unfold getBitsDescriptor
    split <;> omega
  have hexoD := getRefsDescriptor_exotic c h7
  have hlenw := length_writeTopUppedArray c.bits
  have hlenc := length_concatMap_writeNumber s refs
  have htake : (writeTopUppedArray c.bits ++
        (concatMap (fun r => writeNumber r s) refs ++ rest)).take (getTopUppedLength c.bits) =
      writeTopUppedArray c.bits := List.take_left' hlenw
  have hread : readIntList c.refs.length s ((writeTopUppedArray c.bits ++
        (concatMap (fun r => writeNumber r s) refs ++ rest)).drop (getTopUppedLength c.bits)) =
      .ok refs := by
    rw [List.drop_left' hlenw, ← hrl]
    exact readIntList_concat s refs rest hrefs
  have hresid : (writeTopUppedArray c.bits ++
        (concatMap (fun r => writeNumber r s) refs ++ rest)).drop
          (getTopUppedLength c.bits + s * c.refs.length) = rest := by
    rw [show getTopUppedLength c.bits + s * c.refs.length =
        (writeTopUppedArray c.bits ++ concatMap (fun r => writeNumber r s) refs).length by
      simp only [List.length_append, hlenw, hlenc, ← hrl]
      ring]
    rw [← List.append_assoc]
    exact List.drop_left _ _
  have hbits : fromTopUppedArray ((writeTopUppedArray c.bits ++
        (concatMap (fun r => writeNumber r s) refs ++ rest)).take (getTopUppedLength c.bits))
        (getBitsDescriptor c % 2 == 0) = c.bits := by
    rw [htake]
    exact fromTopUpped_writeTopUpped2 c.bits _ hfb
  have hser : serializeForBoc c refs s ++ rest =
      getRefsDescriptor c % 256 :: getBitsDescriptor c % 256 ::
        ((if c.isExotic then [cellTypeByte c.kind] else []) ++
         (writeTopUppedArray c.bits ++
          (concatMap (fun r => writeNumber r s) refs ++ rest))) := by
    rw [serializeForBoc]
    simp [List.append_assoc]
  by_cases hexo : c.isExotic = true
  · rw [if_pos hexo] at harith hexoD
    rw [if_pos hexo] at hser
    have hkind : c.kind = CellKind.pruned ∨ c.kind = CellKind.library_reference ∨
        c.kind = CellKind.merkle_proof ∨ c.kind = CellKind.merkle_update := by
      unfold Cell.isExotic at hexo
      rcases hc : c.kind <;> simp [hc] at hexo ⊢
    unfold deserializeCellData
    rw [hser]
    rw [if_neg (by simp)]
    simp only [List.headD_cons, List.drop_succ_cons, List.drop_zero, hd1, hd2m,
      List.singleton_append]
    rw [if_neg (by
      simp only [List.length_cons, List.length_append, hlenw, hlenc, hrefNum, harith]
      have hc : refs.length * s = s * c.refs.length := by rw [hrl]; ring
      omega)]
    rw [hexoD]
    have hd2pos : ¬ getBitsDescriptor c = 0 := by
      unfold getBitsDescriptor
      rw [if_pos hexo]
      omega
    simp only [hrefNum, harith, if_neg hd2pos]
    norm_num
    rcases hkind with hk | hk | hk | hk <;>
      rw [hk] <;>
      simp only [cellTypeByte] <;>
      norm_num <;>
      simp only [hbits, hread, List.drop_drop, hresid]
  · have hexof : c.isExotic = false := by simpa using hexo
    rw [if_neg hexo] at harith hexoD
    rw [if_neg hexo] at hser
    unfold deserializeCellData
    rw [hser]
    rw [if_neg (by simp)]
    simp only [List.headD_cons, List.drop_succ_cons, List.drop_zero, hd1, hd2m,
      List.nil_append]
    rw [if_neg (by
      simp only [List.length_append, hlenw, hlenc, hrefNum, harith]
      have hc : refs.length * s = s * c.refs.length := by rw [hrl]; ring
      omega)]
    rw [hexoD]
    simp only [hrefNum, harith, Nat.add_zero]
    norm_num
    rw [hbits, hread]
    simp only [List.drop_drop]
    rw [hresid, isExotic_false_kind c hexof]

theorem decodeRecords_concat (s : Nat) :
    ∀ entries : List (Cell × List Nat),
      (∀ p ∈ entries, p.1.refs.length ≤ 7 ∧ p.2.length = p.1.refs.length ∧
        getBitsDescriptor p.1 ≤ 255 ∧ ∀ r ∈ p.2, r < 256 ^ s) →
      decodeRecords entries.length
        (concatMap (fun p => serializeForBoc p.1 p.2 s) entries) s =
        .ok (entries.map (fun p => ((p.1.kind, p.1.bits), p.2)))
  | [], _ => rfl
  | p :: ps, h => by
    obtain ⟨h7, hrl, hd2, hrefs⟩ := h p (by simp)
    rw [concatMap, List.length_cons, decodeRecords,
      deserializeCellData_serializeForBoc p.1 p.2 s _ h7 hrl hd2 hrefs]
    simp [decodeRecords_concat s ps (fun q hq => h q (by simp [hq]))]

/-! ## Linking inverts the linearizer -/

theorem preCells_cons (c : Cell) : preCells c = c :: preCellsList c.refs := by
  cases c
  rfl

theorem resolveRefs_childPositions :
    ∀ (rs : List Cell) (ci base : Nat) (pre tailL : List Cell) (self : Cell),
      pre.length = base →
      resolveRefs ci self (pre ++ (preCellsList rs ++ tailL))
        (childPositions rs (ci + 1 + base)) = .ok rs
  | [], _, _, _, _, _, _ => rfl
  | r :: rs2, ci, base, pre, tailL, self, hlen => by
    rw [childPositions, resolveRefs]
    rw [if_neg (by omega)]
    have hget : (pre ++ (preCellsList (r :: rs2) ++ tailL)).get? (ci + 1 + base - ci - 1) =
        some r := by
      have hidx : ci + 1 + base - ci - 1 = base := by omega
      rw [hidx, ← hlen, preCellsList, preCells_cons]
      rw [List.get?_append_right (le_refl pre.length)]
      simp
    have hrec : resolveRefs ci self (pre ++ (preCellsList (r :: rs2) ++ tailL))
        (childPositions rs2 (ci + 1 + base + cellCount r)) = .ok rs2 := by
      have hassoc : pre ++ (preCellsList (r :: rs2) ++ tailL) =
          (pre ++ preCells r) ++ (preCellsList rs2 ++ tailL) := by
        rw [preCellsList]
        simp [List.append_assoc]
      have hpos : ci + 1 + base + cellCount r = ci + 1 + (base + cellCount r) := by omega
      rw [hassoc, hpos]
      exact resolveRefs_childPositions rs2 ci (base + cellCount r) (pre ++ preCells r)
        tailL self (by simp [length_preCells, hlen])
    rw [hrec, hget]
    rw [if_neg (by omega)]
    simp

theorem Cell.kind_mk (k : CellKind) (b : List Bool) (rs : List Cell) :
    (Cell.mk k b rs).kind = k := rfl

theorem Cell.bits_mk (k : CellKind) (b : List Bool) (rs : List Cell) :
    (Cell.mk k b rs).bits = b := rfl

theorem Cell.refs_mk (k : CellKind) (b : List Bool) (rs : List Cell) :
    (Cell.mk k b rs).refs = rs := rfl

mutual
theorem linkAux_topo : ∀ (c : Cell) (ci : Nat)
    (extra : List ((CellKind × List Bool) × List Nat)) (tailC : List Cell),
    linkAux (ci + cellCount c) extra = .ok tailC →
    linkAux ci ((topoAux c ci).map (fun q => ((q.1.kind, q.1.bits), q.2)) ++ extra) =
      .ok (preCells c ++ tailC)
  | Cell.mk k b rs, ci, extra, tailC, hextra => by
    rw [topoAux]
    simp only [List.map_cons, Cell.kind_mk, Cell.bits_mk, List.cons_append]
    rw [linkAux]
    have hlist : linkAux (ci + 1)
        ((topoAuxList rs (ci + 1)).map (fun q => ((q.1.kind, q.1.bits), q.2)) ++ extra) =
        .ok (preCellsList rs ++ tailC) := by
      apply linkAuxList_topo rs (ci + 1) extra tailC
      rw [show ci + 1 + cellCountList rs = ci + cellCount (Cell.mk k b rs) by
        rw [cellCount]; omega]
      exact hextra
    have hres : resolveRefs ci (Cell.mk k b []) (preCellsList rs ++ tailC)
        (childPositions rs (ci + 1)) = .ok rs := by
      have h0 := resolveRefs_childPositions rs ci 0 [] tailC (Cell.mk k b []) rfl
      simpa using h0
    simp only [hlist, hres, preCells, List.cons_append]
theorem linkAuxList_topo : ∀ (cs : List Cell) (ci : Nat)
    (extra : List ((CellKind × List Bool) × List Nat)) (tailC : List Cell),
    linkAux (ci + cellCountList cs) extra = .ok tailC →
    linkAux ci ((topoAuxList cs ci).map (fun q => ((q.1.kind, q.1.bits), q.2)) ++ extra) =
      .ok (preCellsList cs ++ tailC)
  | [], ci, extra, tailC, h => by
    rw [topoAuxList, preCellsList]
    simpa [cellCountList] using h
  | c :: cs2, ci, extra, tailC, h => by
    rw [topoAuxList, preCellsList]
    simp only [List.map_append, List.append_assoc]
    have h2 : linkAux (ci + cellCount c)
        ((topoAuxList cs2 (ci + cellCount c)).map (fun q => ((q.1.kind, q.1.bits), q.2)) ++
          extra) = .ok (preCellsList cs2 ++ tailC) := by
      apply linkAuxList_topo cs2 (ci + cellCount c) extra tailC
      rw [show ci + cellCount c + cellCountList cs2 = ci + cellCountList (c :: cs2) by
        rw [cellCountList]; omega]
      exact h
    have h1 := linkAux_topo c ci
      ((topoAuxList cs2 (ci + cellCount c)).map (fun q => ((q.1.kind, q.1.bits), q.2)) ++
        extra) (preCellsList cs2 ++ tailC) h2
    rw [h1]
end

/-! ## Error characterization of the linking pass -/

theorem resolveRefs_error_broken (ci : Nat) (self : Cell) (linked : List Cell) :
    ∀ (rsIdx : List Nat) (e : BocError),
      resolveRefs ci self linked rsIdx = .error e → e = .brokenTopoOrder
  | [], e, h => by simp [resolveRefs] at h
  | r :: rest, e, h => by
    rw [resolveRefs] at h
    by_cases hr : r < ci
    · rw [if_pos hr] at h
      simpa using h.symm
    · rw [if_neg hr] at h
      split at h
      · rename_i e2 hres
        cases h
        exact resolveRefs_error_broken ci self linked rest e hres
      · cases h

theorem resolveRefs_error_iff (ci : Nat) (self : Cell) (linked : List Cell) :
    ∀ rsIdx : List Nat,
      (∃ e, resolveRefs ci self linked rsIdx = .error e) ↔ ∃ r ∈ rsIdx, r < ci
  | [] => by simp [resolveRefs]
  | r :: rest => by
    constructor
    · rintro ⟨e, he⟩
      rw [resolveRefs] at he
      by_cases hr : r < ci
      · exact ⟨r, by simp, hr⟩
      · rw [if_neg hr] at he
        split at he
        · rename_i e2 hres
          obtain ⟨r2, hr2, hlt⟩ := (resolveRefs_error_iff ci self linked rest).1 ⟨e2, hres⟩
          exact ⟨r2, by simp [hr2], hlt⟩
        · cases he
    · rintro ⟨r2, hr2, hlt⟩
      rcases List.mem_cons.1 hr2 with h | h
      · subst h
        exact ⟨.brokenTopoOrder, by rw [resolveRefs, if_pos hlt]⟩
      · obtain ⟨e, he⟩ := (resolveRefs_error_iff ci self linked rest).2 ⟨r2, h, hlt⟩
        rw [resolveRefs]
        by_cases hr : r < ci
        · exact ⟨.brokenTopoOrder, by rw [if_pos hr]⟩
        · rw [if_neg hr]
          exact ⟨e, by simp only [he]⟩

theorem linkAux_error_broken :
    ∀ (recs : List ((CellKind × List Bool) × List Nat)) (ci : Nat) (e : BocError),
      linkAux ci recs = .error e → e = .brokenTopoOrder
  | [], _, e, h => by simp [linkAux] at h
  | ((k, b), rs) :: rest, ci, e, h => by
    rw [linkAux] at h
    split at h
    · rename_i e2 hres
      cases h
      exact linkAux_error_broken rest (ci + 1) e hres
    · rename_i tail hres
      split at h
      · rename_i e3 hrr
        cases h
        exact resolveRefs_error_broken ci (Cell.mk k b []) tail rs e hrr
      · cases h

theorem linkAux_error_iff :
    ∀ (recs : List ((CellKind × List Bool) × List Nat)) (ci : Nat),
      (∃ e, linkAux ci recs = .error e) ↔
        ∃ i p, recs.get? i = some p ∧ ∃ r ∈ p.2, r < ci + i
  | [], ci => by simp [linkAux]
  | ((k, b), rs) :: rest, ci => by
    constructor
    · rintro ⟨e, he⟩
      rw [linkAux] at he
      split at he
      · rename_i e2 hres
        obtain ⟨i, p, hip, r, hr, hlt⟩ := (linkAux_error_iff rest (ci + 1)).1 ⟨e2, hres⟩
        exact ⟨i + 1, p, by simpa using hip, r, hr, by omega⟩
      · rename_i tail hres
        split at he
        · rename_i e3 hrr
          obtain ⟨r, hr, hlt⟩ :=
            (resolveRefs_error_iff ci (Cell.mk k b []) tail rs).1 ⟨e3, hrr⟩
          exact ⟨0, ((k, b), rs), rfl, r, hr, by omega⟩
        · cases he
    · rintro ⟨i, p, hip, r, hr, hlt⟩
      rw [linkAux]
      rcases hres : linkAux (ci + 1) rest with e2 | tail
      · exact ⟨e2, by simp only [hres]⟩
      · simp only [hres]
        cases i with
        | zero =>
          simp only [List.get?_cons_zero, Option.some.injEq] at hip
          subst hip
          obtain ⟨e3, he3⟩ :=
            (resolveRefs_error_iff ci (Cell.mk k b []) tail rs).2 ⟨r, hr, by omega⟩
          exact ⟨e3, by simp only [he3]⟩
        | succ j =>
          simp only [List.get?_cons_succ] at hip
          obtain ⟨e2, he2⟩ := (linkAux_error_iff rest (ci + 1)).2
            ⟨j, p, hip, r, hr, by omega⟩
          rw [he2] at hres
          cases hres

theorem linkAux_length :
    ∀ (recs : List ((CellKind × List Bool) × List Nat)) (ci : Nat) (l : List Cell),
      linkAux ci recs = .ok l → l.length = recs.length
  | [], _, l, h => by
    simp only [linkAux, Except.ok.injEq] at h
    subst h
    rfl
  | ((k, b), rs) :: rest, ci, l, h => by
    rw [linkAux] at h
    split at h
    · cases h
    · rename_i tail hres
      split at h
      · cases h
      · rename_i os hrr
        cases h
        simp [linkAux_length rest (ci + 1) tail hres]

theorem decodeRecords_length :
    ∀ (count : Nat) (data : List Nat) (s : Nat)
      (recs : List ((CellKind × List Bool) × List Nat)),
      decodeRecords count data s = .ok recs → recs.length = count
  | 0, _, _, recs, h => by
    simp only [decodeRecords, Except.ok.injEq] at h
    subst h
    rfl
  | n + 1, data, s, recs, h => by
    rw [decodeRecords] at h
    split at h
    · cases h
    · rename_i v hd
      split at h
      · cases h
      · rename_i rest hr
        cases h
        simp [decodeRecords_length n _ s rest hr]

/-! ## Size bounds for the serializer -/

theorem cellFitB_spec (d : Cell) (h : cellFitB d = true) :
    d.refs.length ≤ 7 ∧ getBitsDescriptor d ≤ 255 := by
  unfold cellFitB at h
  simp only [Bool.and_eq_true, decide_eq_true_eq] at h
  exact h

theorem length_crc32c (l : List Nat) : (crc32c l).length = 4 := rfl

theorem length_cumSums : ∀ (l : List Nat) (acc : Nat), (cumSums acc l).length = l.length
  | [], _ => rfl
  | x :: xs, acc => by
    rw [cumSums]
    simp [length_cumSums xs]

theorem cumSums_le : ∀ (l : List Nat) (acc v : Nat), v ∈ cumSums acc l → v ≤ acc + l.sum
  | [], _, v, hv => by simp [cumSums] at hv
  | x :: xs, acc, v, hv => by
    rw [cumSums] at hv
    rcases List.mem_cons.1 hv with h | h
    · subst h
      simp only [List.sum_cons]
      omega
    · have := cumSums_le xs (acc + x) v h
      simp only [List.sum_cons]
      omega

theorem sum_ge_two_length : ∀ l : List Nat, (∀ x ∈ l, 2 ≤ x) → l.length ≤ l.sum
  | [], _ => le_refl 0
  | x :: xs, h => by
    have hx := h x (by simp)
    have := sum_ge_two_length xs (fun y hy => h y (by simp [hy]))
    simp only [List.length_cons, List.sum_cons]
    omega

theorem sum_le_152 : ∀ l : List Nat, (∀ x ∈ l, x ≤ 152) → l.sum ≤ 152 * l.length
  | [], _ => by simp
  | x :: xs, h => by
    have hx := h x (by simp)
    have := sum_le_152 xs (fun y hy => h y (by simp [hy]))
    simp only [List.length_cons, List.sum_cons]
    omega

theorem tuLen_le (c : Cell) (h : getBitsDescriptor c ≤ 255) :
    getTopUppedLength c.bits ≤ 128 := by
  unfold getBitsDescriptor at h
  unfold getTopUppedLength
  split at h <;> omega

theorem calcSize_ge_two (c : Cell) (s : Nat) : 2 ≤ calcCellSerializedSize c s := by
  unfold calcCellSerializedSize
  omega

theorem calcSize_le_152 (c : Cell) (s : Nat) (hs : s ≤ 3) (h7 : c.refs.length ≤ 7)
    (hd2 : getBitsDescriptor c ≤ 255) : calcCellSerializedSize c s ≤ 152 := by
  have := tuLen_le c hd2
  unfold calcCellSerializedSize
  have : c.refs.length * s ≤ 21 := by
    calc c.refs.length * s ≤ 7 * 3 := Nat.mul_le_mul h7 hs
      _ = 21 := rfl
  split <;> omega

theorem bocCellsNum_eq (c : Cell) : (bocAllCells c).length = cellCount c :=
  length_topoAux c 0

theorem bocSBytes_pos (c : Cell) : 1 ≤ bocSBytes c := le_max_right _ _

theorem bocSBytes_le_three (c : Cell) (hn : cellCount c < 2 ^ 23) : bocSBytes c ≤ 3 := by
  unfold bocSBytes
  rw [bocCellsNum_eq]
  have := width_le_of_lt (cellCount c) 3 (by norm_num at *; omega) (by norm_num)
  omega

theorem length_concatMap_serialize (s : Nat) :
    ∀ entries : List (Cell × List Nat), (∀ p ∈ entries, p.2.length = p.1.refs.length) →
      (concatMap (fun p => serializeForBoc p.1 p.2 s) entries).length =
        (entries.map (fun p => calcCellSerializedSize p.1 s)).sum
  | [], _ => rfl
  | p :: ps, h => by
    rw [concatMap]
    simp only [List.length_append, List.map_cons, List.sum_cons]
    rw [length_serializeForBoc p.1 p.2 s (h p (by simp)),
      length_concatMap_serialize s ps (fun q hq => h q (by simp [hq]))]

theorem length_bocRecords (c : Cell) : (bocRecords c).length = bocFullSize c := by
  unfold bocRecords bocFullSize bocSizes
  exact length_concatMap_serialize _ _ (fun p hp => topoAux_snd_length c 0 p hp)

theorem bocFullSize_ge (c : Cell) : cellCount c ≤ bocFullSize c := by
  unfold bocFullSize
  calc cellCount c = (bocSizes c).length := by
        unfold bocSizes
        rw [List.length_map, bocCellsNum_eq]
    _ ≤ (bocSizes c).sum := sum_ge_two_length _ (by
        intro x hx
        unfold bocSizes at hx
        obtain ⟨p, _, hpx⟩ := List.mem_map.1 hx
        rw [← hpx]
        exact calcSize_ge_two p.1 _)

theorem bocFullSize_lt (c : Cell) (hfit : cellAllB cellFitB c = true)
    (hn : cellCount c < 2 ^ 23) : bocFullSize c < 2 ^ 31 := by
  have hsum : (bocSizes c).sum ≤ 152 * (bocSizes c).length := by
    apply sum_le_152
    intro x hx
    unfold bocSizes at hx
    obtain ⟨p, hp, hpx⟩ := List.mem_map.1 hx
    obtain ⟨h7, hd2⟩ := cellFitB_spec p.1
      (cellAllB_self cellFitB p.1 (topoAux_all cellFitB c 0 hfit p hp))
    rw [← hpx]
    exact calcSize_le_152 p.1 _ (bocSBytes_le_three c hn) h7 hd2
  have hlen : (bocSizes c).length = cellCount c := by
    unfold bocSizes
    rw [List.length_map, bocCellsNum_eq]
  unfold bocFullSize
  rw [hlen] at hsum
  calc (bocSizes c).sum ≤ 152 * cellCount c := hsum
    _ < 152 * 2 ^ 23 := by
        have h23 : (2:Nat) ^ 23 = 8388608 := by norm_num
        omega
    _ < 2 ^ 31 := by norm_num

theorem bocOffsetBytes_le (c : Cell) (hfit : cellAllB cellFitB c = true)
    (hn : cellCount c < 2 ^ 23) : bocOffsetBytes c ≤ 4 := by
  unfold bocOffsetBytes
  have h1 : bocFullSize c < 2 ^ (8 * 4) := by
    have := bocFullSize_lt c hfit hn
    calc bocFullSize c < 2 ^ 31 := this
      _ < 2 ^ 32 := by norm_num
  exact width_le_of_lt _ 4 h1 (by norm_num)

theorem bocSBytes_le_bocOffsetBytes (c : Cell) : bocSBytes c ≤ bocOffsetBytes c := by
  unfold bocSBytes bocOffsetBytes
  have h1 : bitLen (bocAllCells c).length ≤ bitLen (bocFullSize c) := by
    apply bitLen_mono
    rw [bocCellsNum_eq]
    exact bocFullSize_ge c
  omega

theorem bocCellsNum_lt (c : Cell) : (bocAllCells c).length < 256 ^ bocSBytes c :=
  lt_256_pow_width _ _ le_rfl

theorem bocFullSize_lt_pow (c : Cell) : bocFullSize c < 256 ^ bocOffsetBytes c :=
  lt_256_pow_width _ _ le_rfl

theorem one_lt_pow_sBytes (c : Cell) : 1 < 256 ^ bocSBytes c := by
  have := bocSBytes_pos c
  calc (1:Nat) < 256 ^ 1 := by norm_num
    _ ≤ 256 ^ bocSBytes c := Nat.pow_le_pow_right (by norm_num) this

theorem decodeMagicFlags_flagByte (i cr ch : Bool) (f s : Nat) (hf : f ≤ 3) (hs : s ≤ 7) :
    decodeMagicFlags reachBocMagic (bocFlagByte i cr ch f s) =
      some (i, cr, ch, f % 2 * 8 + f / 2 * 32, s) := by
  interval_cases f <;> interval_cases s <;> rcases i <;> rcases cr <;> rcases ch <;> rfl

theorem parseBocHeader_serializeToBoc (c : Cell) (i cr ch : Bool) (f : Nat)
    (hf : f ≤ 3) (hfit : cellAllB cellFitB c = true) (hn : cellCount c < 2 ^ 23) :
    parseBocHeader (serializeToBoc c i cr ch f) = .ok {
      has_idx := i, hash_crc32 := cr, has_cache_bits := ch,
      flags := f % 2 * 8 + f / 2 * 32,
      size_bytes := bocSBytes c, off_bytes := bocOffsetBytes c,
      cells_num := cellCount c, roots_num := 1, absent_num := 0,
      tot_cells_size := bocFullSize c,
      root_list := [0],
      index := if i then some (bocSizeIndex c) else none,
      cells_data := bocRecords c } := by
  have hnc := bocCellsNum_eq c
  have hsb1 := bocSBytes_pos c
  have hsb3 := bocSBytes_le_three c hn
  have hob4 := bocOffsetBytes_le c hfit hn
  have hsbob := bocSBytes_le_bocOffsetBytes c
  have hnlt := bocCellsNum_lt c
  have hflt := bocFullSize_lt_pow c
  have h1lt := one_lt_pow_sBytes c
  have h0lt : 0 < 256 ^ bocSBytes c := by omega
  have hoblt : bocOffsetBytes c % 256 = bocOffsetBytes c := Nat.mod_eq_of_lt (by omega)
  have hrecl := length_bocRecords c
  have hidxlen : (bocSizeIndex c).length = (bocAllCells c).length := by
    unfold bocSizeIndex
    rw [length_cumSums]
    unfold bocSizes
    rw [List.length_map]
  have hidxval : ∀ v ∈ bocSizeIndex c, v < 256 ^ bocOffsetBytes c := by
    intro v hv
    have h1 : v ≤ bocFullSize c := by
      have := cumSums_le (bocSizes c) 0 v hv
      unfold bocFullSize
      omega
    exact lt_of_le_of_lt h1 hflt
  have hroot : ∀ rest : List Nat,
      readIntList 1 (bocSBytes c) (writeNumber 0 (bocSBytes c) ++ rest) = .ok [0] := by
    intro rest
    have h0 := readIntList_concat (bocSBytes c) [0] rest (by
      intro v hv
      simp at hv
      subst hv
      omega)
    simpa [concatMap] using h0
  have hr1 : ∀ rest : List Nat, readNBytesUIntFromArray (bocSBytes c)
      (writeNumber 1 (bocSBytes c) ++ rest) = some 1 :=
    fun rest => readN_writeNumber 1 _ rest h1lt
  have hr0 : ∀ rest : List Nat, readNBytesUIntFromArray (bocSBytes c)
      (writeNumber 0 (bocSBytes c) ++ rest) = some 0 :=
    fun rest => readN_writeNumber 0 _ rest (by omega)
  have hrN : ∀ rest : List Nat, readNBytesUIntFromArray (bocSBytes c)
      (writeNumber (bocAllCells c).length (bocSBytes c) ++ rest) =
      some (bocAllCells c).length :=
    fun rest => readN_writeNumber _ _ rest hnlt
  have hrF : ∀ rest : List Nat, readNBytesUIntFromArray (bocOffsetBytes c)
      (writeNumber (bocFullSize c) (bocOffsetBytes c) ++ rest) = some (bocFullSize c) :=
    fun rest => readN_writeNumber _ _ rest hflt
  have hcellstake : ∀ rest : List Nat, (bocRecords c ++ rest).take (bocFullSize c) =
      bocRecords c := fun rest => List.take_left' hrecl
  have hcellsdrop : ∀ rest : List Nat, (bocRecords c ++ rest).drop (bocFullSize c) =
      rest := fun rest => List.drop_left' hrecl
  have htakerec : (bocRecords c).take (bocFullSize c) = bocRecords c := by
    rw [← hrecl]
    exact List.take_length _
  have hdroprec : (bocRecords c).drop (bocFullSize c) = [] := by
    rw [← hrecl]
    exact List.drop_length _
  have hct : ∀ X : List Nat, (crc32c X).take 4 = crc32c X := fun X => by
    rw [← length_crc32c X]
    exact List.take_length _
  have hcd : ∀ X : List Nat, (crc32c X).drop 4 = [] := fun X => by
    rw [← length_crc32c X]
    exact List.drop_length _
  have hcomm : bocOffsetBytes c * (bocAllCells c).length =
      (bocAllCells c).length * bocOffsetBytes c := by ring
  have hidxread : ∀ rest : List Nat, readIntList (bocAllCells c).length (bocOffsetBytes c)
      (concatMap (fun off => writeNumber off (bocOffsetBytes c)) (bocSizeIndex c) ++ rest) =
      .ok (bocSizeIndex c) := by
    intro rest
    have h0 := readIntList_concat (bocOffsetBytes c) (bocSizeIndex c) rest hidxval
    rw [hidxlen] at h0
    exact h0
  have hidxdrop : ∀ rest : List Nat,
      (concatMap (fun off => writeNumber off (bocOffsetBytes c)) (bocSizeIndex c) ++
        rest).drop (bocOffsetBytes c * (bocAllCells c).length) = rest := by
    intro rest
    rw [show bocOffsetBytes c * (bocAllCells c).length =
        (concatMap (fun off => writeNumber off (bocOffsetBytes c)) (bocSizeIndex c)).length by
      rw [length_concatMap_writeNumber, hidxlen]
      ring]
    exact List.drop_left _ _
  have hidxlen2 : ∀ rest : List Nat,
      (concatMap (fun off => writeNumber off (bocOffsetBytes c)) (bocSizeIndex c) ++
        rest).length = (bocAllCells c).length * bocOffsetBytes c + rest.length := by
    intro rest
    simp [length_concatMap_writeNumber, hidxlen]
  rcases i <;> rcases cr
  · -- has_idx = false, hash_crc32 = false
    have hinput2 : serializeToBoc c false false ch f =
        181 :: 238 :: 156 :: 114 ::
          bocFlagByte false false ch f (bocSBytes c) ::
          bocOffsetBytes c % 256 ::
          (writeNumber (bocAllCells c).length (bocSBytes c) ++
            (writeNumber 1 (bocSBytes c) ++
              (writeNumber 0 (bocSBytes c) ++
                (writeNumber (bocFullSize c) (bocOffsetBytes c) ++
                  (writeNumber 0 (bocSBytes c) ++ bocRecords c))))) := by
      unfold serializeToBoc bocBody reachBocMagic
      simp [List.append_assoc]
    rw [hinput2]
    unfold parseBocHeader
    rw [if_neg (by simp)]
    simp only [List.take_succ_cons, List.take_zero, List.drop_succ_cons, List.drop_zero,
      List.headD_cons]
    rw [show ([0xb5, 0xee, 0x9c, 0x72] : List Nat) = reachBocMagic from rfl,
      decodeMagicFlags_flagByte false false ch f (bocSBytes c) hf (by omega)]
    dsimp only
    simp only [hoblt, Bool.false_eq_true, Bool.true_eq_false, if_false, if_true,
      eq_self_iff_true, hrN, hr1, hr0, hrF, drop_writeNumber, hroot, one_mul,
      List.length_cons, List.length_append, length_writeNumber, length_crc32c,
      length_concatMap_writeNumber, hidxlen, hrecl, hcellstake, hcellsdrop, htakerec,
      hdroprec, hidxread, hidxdrop, hct, hcd]
    rw [if_neg (by omega)]
    rw [if_neg (by omega)]
    try dsimp only
    rw [if_neg (by omega)]
    try dsimp only
    simp [hnc]
  · -- has_idx = false, hash_crc32 = true
    have hbody : serializeToBoc c false true ch f =
        bocBody c false true ch f ++ crc32c (bocBody c false true ch f) := by
      unfold serializeToBoc
      simp
    have htk : (bocBody c false true ch f ++ crc32c (bocBody c false true ch f)).take
        ((bocBody c false true ch f ++ crc32c (bocBody c false true ch f)).length - 4) =
        bocBody c false true ch f := by
      simp only [List.length_append, length_crc32c]
      rw [show (bocBody c false true ch f).length + 4 - 4 =
          (bocBody c false true ch f).length by omega]
      exact List.take_left _ _
    have hinput2 : serializeToBoc c false true ch f =
        181 :: 238 :: 156 :: 114 ::
          bocFlagByte false true ch f (bocSBytes c) ::
          bocOffsetBytes c % 256 ::
          (writeNumber (bocAllCells c).length (bocSBytes c) ++
            (writeNumber 1 (bocSBytes c) ++
              (writeNumber 0 (bocSBytes c) ++
                (writeNumber (bocFullSize c) (bocOffsetBytes c) ++
                  (writeNumber 0 (bocSBytes c) ++
                    (bocRecords c ++ crc32c (bocBody c false true ch f))))))) := by
      unfold serializeToBoc bocBody reachBocMagic
      simp [List.append_assoc]
    rw [hinput2]
    unfold parseBocHeader
    rw [if_neg (by simp)]
    simp only [List.take_succ_cons, List.take_zero, List.drop_succ_cons, List.drop_zero,
      List.headD_cons]
    rw [show ([0xb5, 0xee, 0x9c, 0x72] : List Nat) = reachBocMagic from rfl,
      decodeMagicFlags_flagByte false true ch f (bocSBytes c) hf (by omega)]
    dsimp only
    rw [← hinput2, hbody, htk]
    simp only [hoblt, Bool.false_eq_true, Bool.true_eq_false, if_false, if_true,
      eq_self_iff_true, hrN, hr1, hr0, hrF, drop_writeNumber, hroot, one_mul,
      List.length_cons, List.length_append, length_writeNumber, length_crc32c,
      length_concatMap_writeNumber, hidxlen, hrecl, hcellstake, hcellsdrop, htakerec,
      hdroprec, hidxread, hidxdrop, hct, hcd]
    rw [if_neg (by omega)]
    rw [if_neg (by omega)]
    try dsimp only
    rw [if_neg (by omega)]
    rw [if_neg (by omega)]
    rw [if_neg (by simp)]
    try dsimp only
    simp [hnc]
  · -- has_idx = true, hash_crc32 = false
    have hinput2 : serializeToBoc c true false ch f =
        181 :: 238 :: 156 :: 114 ::
          bocFlagByte true false ch f (bocSBytes c) ::
          bocOffsetBytes c % 256 ::
          (writeNumber (bocAllCells c).length (bocSBytes c) ++
            (writeNumber 1 (bocSBytes c) ++
              (writeNumber 0 (bocSBytes c) ++
                (writeNumber (bocFullSize c) (bocOffsetBytes c) ++
                  (writeNumber 0 (bocSBytes c) ++
                    (concatMap (fun off => writeNumber off (bocOffsetBytes c))
                      (bocSizeIndex c) ++ bocRecords c)))))) := by
      unfold serializeToBoc bocBody reachBocMagic
      simp [List.append_assoc]
    rw [hinput2]
    unfold parseBocHeader
    rw [if_neg (by simp)]
    simp only [List.take_succ_cons, List.take_zero, List.drop_succ_cons, List.drop_zero,
      List.headD_cons]
    rw [show ([0xb5, 0xee, 0x9c, 0x72] : List Nat) = reachBocMagic from rfl,
      decodeMagicFlags_flagByte true false ch f (bocSBytes c) hf (by omega)]
    dsimp only
    simp only [hoblt, Bool.false_eq_true, Bool.true_eq_false, if_false, if_true,
      eq_self_iff_true, hrN, hr1, hr0, hrF, drop_writeNumber, hroot, one_mul,
      List.length_cons, List.length_append, length_writeNumber, length_crc32c,
      length_concatMap_writeNumber, hidxlen, hrecl, hcellstake, hcellsdrop, htakerec,
      hdroprec, hidxread, hidxdrop, hct, hcd]
    rw [if_neg (by omega)]
    rw [if_neg (by omega)]
    rw [if_neg (by omega)]
    try dsimp only
    rw [if_neg (by omega)]
    try dsimp only
    simp [hnc]
  · -- has_idx = true, hash_crc32 = true
    have hbody : serializeToBoc c true true ch f =
        bocBody c true true ch f ++ crc32c (bocBody c true true ch f) := by
      unfold serializeToBoc
      simp
    have htk : (bocBody c true true ch f ++ crc32c (bocBody c true true ch f)).take
        ((bocBody c true true ch f ++ crc32c (bocBody c true true ch f)).length - 4) =
        bocBody c true true ch f := by
      simp only [List.length_append, length_crc32c]
      rw [show (bocBody c true true ch f).length + 4 - 4 =
          (bocBody c true true ch f).length by omega]
      exact List.take_left _ _
    have hinput2 : serializeToBoc c true true ch f =
        181 :: 238 :: 156 :: 114 ::
          bocFlagByte true true ch f (bocSBytes c) ::
          bocOffsetBytes c % 256 ::
          (writeNumber (bocAllCells c).length (bocSBytes c) ++
            (writeNumber 1 (bocSBytes c) ++
              (writeNumber 0 (bocSBytes c) ++
                (writeNumber (bocFullSize c) (bocOffsetBytes c) ++
                  (writeNumber 0 (bocSBytes c) ++
                    (concatMap (fun off => writeNumber off (bocOffsetBytes c))
                        (bocSizeIndex c) ++
                      (bocRecords c ++ crc32c (bocBody c true true ch f)))))))) := by
      unfold serializeToBoc bocBody reachBocMagic
      simp [List.append_assoc]
    rw [hinput2]
    unfold parseBocHeader
    rw [if_neg (by simp)]
    simp only [List.take_succ_cons, List.take_zero, List.drop_succ_cons, List.drop_zero,
      List.headD_cons]
    rw [show ([0xb5, 0xee, 0x9c, 0x72] : List Nat) = reachBocMagic from rfl,
      decodeMagicFlags_flagByte true true ch f (bocSBytes c) hf (by omega)]
    dsimp only
    rw [← hinput2, hbody, htk]
    simp only [hoblt, Bool.false_eq_true, Bool.true_eq_false, if_false, if_true,
      eq_self_iff_true, hrN, hr1, hr0, hrF, drop_writeNumber, hroot, one_mul,
      List.length_cons, List.length_append, length_writeNumber, length_crc32c,
      length_concatMap_writeNumber, hidxlen, hrecl, hcellstake, hcellsdrop, htakerec,
      hdroprec, hidxread, hidxdrop, hct, hcd]
    rw [if_neg (by omega)]
    rw [if_neg (by omega)]
    rw [if_neg (by omega)]
    try dsimp only
    rw [if_neg (by omega)]
    rw [if_neg (by omega)]
    rw [if_neg (by simp)]
    try dsimp only
    simp [hnc]

theorem deserializeBoc_serializeToBoc (c : Cell) (i cr ch : Bool) (f : Nat)
    (hf : f ≤ 3) (hfit : cellAllB cellFitB c = true) (hn : cellCount c < 2 ^ 23) :
    deserializeBoc (serializeToBoc c i cr ch f) = .ok [some c] := by
  have hnc := bocCellsNum_eq c
  have hdec : decodeRecords (cellCount c) (bocRecords c) (bocSBytes c) =
      .ok ((bocAllCells c).map (fun p => ((p.1.kind, p.1.bits), p.2))) := by
    rw [← hnc]
    apply decodeRecords_concat
    intro p hp
    obtain ⟨h7, hd2⟩ := cellFitB_spec p.1
      (cellAllB_self cellFitB p.1 (topoAux_all cellFitB c 0 hfit p hp))
    refine ⟨h7, topoAux_snd_length c 0 p hp, hd2, ?_⟩
    intro r hr
    have hb := topoAux_pos_bound c 0 p hp r hr
    have := bocCellsNum_lt c
    omega
  have hlink : linkCells ((bocAllCells c).map (fun p => ((p.1.kind, p.1.bits), p.2))) =
      .ok (preCells c) := by
    unfold linkCells
    have h0 := linkAux_topo c 0 [] [] (by rfl)
    simpa using h0
  unfold deserializeBoc
  rw [parseBocHeader_serializeToBoc c i cr ch f hf hfit hn]
  dsimp only
  rw [hdec]
  dsimp only
  rw [hlink]
  dsimp only
  rw [preCells_cons]
  simp

theorem readN_none_iff (n : Nat) (arr : List Nat) :
    readNBytesUIntFromArray n arr = none ↔ arr.length < n := by
  unfold readNBytesUIntFromArray
  split <;> simp [*]

theorem parseBocHeader_readPastEnd (input : List Nat)
    (h : parseBocHeader input = .error .readPastEnd) :
    2 * headerSizeBytes input < headerOffsetByte input := by
  unfold parseBocHeader at h
  split at h
  · simp at h
  · split at h
    · simp at h
    · rename_i i0 cr0 ch0 fl0 sb0 hmagic
      simp only [] at h
      split at h
      · simp at h
      · rename_i hc1
        split at h
        · rename_i heq
          rw [readN_none_iff] at heq
          simp only [List.length_drop] at heq hc1
          omega
        · rename_i cells_num heq1
          split at h
          · rename_i heq
            rw [readN_none_iff] at heq
            simp only [List.length_drop] at heq hc1
            omega
          · rename_i roots_num heq2
            split at h
            · rename_i heq
              rw [readN_none_iff] at heq
              simp only [List.length_drop] at heq hc1
              omega
            · rename_i absent_num heq3
              split at h
              · rename_i heq
                rw [readN_none_iff] at heq
                simp only [List.length_drop] at heq hc1
                unfold headerSizeBytes headerOffsetByte
                rw [hmagic]
                dsimp only
                omega
              · rename_i tot heq4
                split at h
                · simp at h
                · rename_i hc2
                  split at h
                  · rename_i e heq
                    obtain ⟨l, hl, _⟩ := readIntList_no_oob roots_num sb0
                      (List.drop ((List.drop 5 input).headD 0)
                        (List.drop sb0 (List.drop sb0 (List.drop sb0
                          (List.drop 1 (List.drop 5 input)))))) (by
                      simp only [List.length_drop] at hc2 ⊢
                      omega)
                    rw [hl] at heq
                    cases heq
                  · rename_i root_list heq5
                    split at h
                    · rename_i e heq
                      split at heq
                      · split at heq
                        · rename_i hc3
                          cases heq
                          simp at h
                        · rename_i hc3
                          split at heq
                          · rename_i e2 heq6
                            obtain ⟨l, hl, _⟩ := readIntList_no_oob cells_num
                              ((List.drop 5 input).headD 0)
                              (List.drop (roots_num * sb0)
                                (List.drop ((List.drop 5 input).headD 0)
                                  (List.drop sb0 (List.drop sb0 (List.drop sb0
                                    (List.drop 1 (List.drop 5 input))))))) (by
                                simp only [List.length_drop] at hc3 ⊢
                                have hco : (List.drop 5 input).headD 0 * cells_num =
                                    cells_num * (List.drop 5 input).headD 0 := by ring
                                omega)
                            rw [hl] at heq6
                            cases heq6
                          · cases heq
                      · cases heq
                    · rename_i index heq6
                      split at h
                      · split at h
                        · simp at h
                        · split at h
                          · rename_i e0 heqc
                            simp only [Except.error.injEq] at h
                            subst h
                            split at heqc
                            · split at heqc
                              · simp at heqc
                              · split at heqc
                                · simp at heqc
                                · simp at heqc
                            · simp at heqc
                          · rename_i heqc
                            split at h
                            · split at h
                              · simp at h
                              · simp at h
                            · split at h
                              · simp at h
                              · simp at h
                      · split at h
                        · simp at h
                        · split at h
                          · rename_i e0 heqc
                            simp only [Except.error.injEq] at h
                            subst h
                            split at heqc
                            · split at heqc
                              · simp at heqc
                              · split at heqc
                                · simp at heqc
                                · simp at heqc
                            · simp at heqc
                          · rename_i heqc
                            split at h
                            · split at h
                              · simp at h
                              · simp at h
                            · split at h
                              · simp at h
                              · simp at h

theorem crcAssembleAux (input : List Nat) (D tot : Nat)
    (hlen : ¬ (List.drop (D + tot) input).length < 4)
    (htrail : ¬ (List.drop (D + tot + 4) input).length ≠ 0)
    (hcmp : ¬ crc32c (List.take (input.length - 4) input) ≠
        List.take 4 (List.drop (D + tot) input)) :
    ∃ pre : List Nat,
      input = pre ++ List.take tot (List.drop D input) ++
        crc32c (pre ++ List.take tot (List.drop D input)) ∧
      (crc32c (pre ++ List.take tot (List.drop D input))).length = 4 := by
  push_neg at hlen htrail hcmp
  rw [List.length_drop] at hlen htrail
  have hDT : D + tot = input.length - 4 := by omega
  have hcells : List.take D input ++ List.take tot (List.drop D input) =
      List.take (D + tot) input := (List.take_add input D tot).symm
  have hle : (List.drop (D + tot) input).length ≤ 4 := by
    rw [List.length_drop]; omega
  have hcrc2 : crc32c (List.take D input ++ List.take tot (List.drop D input)) =
      List.drop (D + tot) input := by
    rw [hcells, hDT, hcmp, List.take_all_of_le hle, hDT]
  refine ⟨List.take D input, ?_, ?_⟩
  · rw [hcrc2, hcells, List.take_append_drop]
  · rw [hcrc2, List.length_drop]; omega

theorem parseBocHeader_crc_region (input : List Nat) (hdr : BocHeader)
    (hok : parseBocHeader input = .ok hdr) (hcrc : hdr.hash_crc32 = true) :
    ∃ pre : List Nat,
      input = pre ++ hdr.cells_data ++ crc32c (pre ++ hdr.cells_data) ∧
      (crc32c (pre ++ hdr.cells_data)).length = 4 := by
  unfold parseBocHeader at hok
  simp only [] at hok
  repeat'
    first
    | exact Except.noConfusion hok
    | split at hok
  all_goals (
    simp only [Except.ok.injEq] at hok
    subst hok
    dsimp only at hcrc ⊢)
  all_goals
    first
    | exact absurd hcrc (by assumption)
    | (rename_i htot x a hq hflag htrail
       rw [if_pos hflag] at hq
       split at hq
       · exact Except.noConfusion hq
       · rename_i hlen
         split at hq
         · exact Except.noConfusion hq
         · rename_i hcmp
           simp only [List.drop_drop] at hlen htrail hcmp ⊢
           exact crcAssembleAux input _ _ hlen htrail hcmp)

/-! ## Store model for the cache context (claim C9)

`boc.ts` keeps a module-global `cacheContext : symbol | null`.  The
wrapper `inCache` creates a fresh symbol when the context is `null`
(`wasCreated`), runs its handler, and tears the context down again in
the `finally` block.  Per-cell caches (`CellCache`, holding an optional
hash and an optional maxDepth) live as symbol-keyed properties on the
mutable `Cell` objects; a fresh symbol therefore means every cell starts
with an empty cache.

To talk about mutation of cells between top-level calls, cells here
live in an explicit heap: a `Store` is a list of `StoredCell`s whose
references are indices into the same store.  Mutating a cell's payload
or refs between two calls is passing a different store to the second
call.  Acyclicity of the heap (which the JS code needs for termination)
is taken in the orientation `wfStoreB`: every reference of the cell at
position `i` points strictly below `i`.  The cache context becomes
`Option (Nat → CellCache)`: `none` is `cacheContext === null`, and a
fresh context is the everywhere-empty table (symbol-keyed property
lookup on a fresh symbol misses on every cell).  All recursions carry
fuel; `i + 1` units suffice below position `i` on a well-formed store. -/

theorem storedAt_oob (store : List StoredCell) (i : Nat) (hi : store.length ≤ i) :
    storedAt store i = defaultStored := by
  simp [storedAt, List.getD, List.getElem?_eq_none hi]

theorem wfStore_ref_lt (store : List StoredCell) (hwf : wfStoreB store = true)
    (i r : Nat) (hi : i < store.length) (hr : r ∈ (storedAt store i).refs) : r < i := by
  unfold wfStoreB at hwf
  rw [List.all_eq_true] at hwf
  have h1 := hwf i (List.mem_range.mpr hi)
  rw [List.all_eq_true] at h1
  exact of_decide_eq_true (h1 r hr)

theorem resolveCell_congr (store : List StoredCell) (hwf : wfStoreB store = true) :
    ∀ i f1 f2, i < f1 → i < f2 → resolveCell store f1 i = resolveCell store f2 i := by
  intro i
  induction i using Nat.strong_induction_on with
  | _ i ih =>
    intro f1 f2 h1 h2
    match f1, f2 with
    | a + 1, b + 1 =>
      simp only [resolveCell]
      refine congrArg _ ?_
      by_cases hl : i < store.length
      · apply List.map_congr_left
        intro r hr
        have hri : r < i := wfStore_ref_lt store hwf i r hl hr
        exact ih r hri a b (by omega) (by omega)
      · rw [storedAt_oob store i (by omega)]
        rfl

theorem cellOf_unfold (store : List StoredCell) (hwf : wfStoreB store = true) (i : Nat) :
    cellOf store i = Cell.mk (storedAt store i).kind (storedAt store i).bits
      ((storedAt store i).refs.map (cellOf store)) := by
  show resolveCell store (i + 1) i = _
  simp only [resolveCell]
  refine congrArg _ ?_
  by_cases hl : i < store.length
  · apply List.map_congr_left
    intro r hr
    have hri : r < i := wfStore_ref_lt store hwf i r hl hr
    exact resolveCell_congr store hwf r i (r + 1) (by omega) (by omega)
  · rw [storedAt_oob store i (by omega)]
    rfl

theorem tblOK_empty (store : List StoredCell) : tblOK store (fun _ => emptyCache) := by
  intro j
  exact ⟨Or.inl rfl, Or.inl rfl⟩

theorem tblOK_updateDepth (store : List StoredCell) (tbl : Nat → CellCache)
    (i : Nat) (ht : tblOK store tbl)
    (hd : getMaxDepth (cellOf store i) = d) :
    tblOK store (updateDepth tbl i d) := by
  intro j
  unfold updateDepth
  by_cases hji : j = i
  · subst hji
    simp only [if_pos rfl]
    exact ⟨Or.inr (by simp [hd]), (ht j).2⟩
  · simp only [if_neg hji]
    exact ht j

theorem tblOK_updateHash (store : List StoredCell) (tbl : Nat → CellCache)
    (i : Nat) (h : List Nat) (ht : tblOK store tbl)
    (hh : hashCell (cellOf store i) = h) :
    tblOK store (updateHash tbl i h) := by
  intro j
  unfold updateHash
  by_cases hji : j = i
  · subst hji
    simp only [if_pos rfl]
    exact ⟨(ht j).1, Or.inr (by simp [hh])⟩
  · simp only [if_neg hji]
    exact ht j

theorem getMaxDepthS_correct (store : List StoredCell) (hwf : wfStoreB store = true) :
    ∀ fuel i tbl, i < fuel → tblOK store tbl →
      (getMaxDepthS store fuel i tbl).1 = getMaxDepth (cellOf store i) ∧
      tblOK store (getMaxDepthS store fuel i tbl).2 := by
  intro fuel
  induction fuel with
  | zero => intro i tbl h _; omega
  | succ fuel ih =>
    intro i tbl hi ht
    rcases hmd : (tbl i).maxDepth with _ | d
    · -- no memo: compute, fold the children, store the memo
      have fold :
          ∀ rs (acc : Nat × (Nat → CellCache)),
            (∀ r ∈ rs, r < fuel) → tblOK store acc.2 →
            (List.foldl (fun acc r =>
                (max acc.1 (getMaxDepthS store fuel r acc.2).1,
                 (getMaxDepthS store fuel r acc.2).2)) acc rs).1
              = max acc.1 (maxDepthList (rs.map (cellOf store))) ∧
            tblOK store (List.foldl (fun acc r =>
                (max acc.1 (getMaxDepthS store fuel r acc.2).1,
                 (getMaxDepthS store fuel r acc.2).2)) acc rs).2 := by
        intro rs
        induction rs with
        | nil =>
            intro acc _ hacc
            exact ⟨by simp [maxDepthList], hacc⟩
        | cons r rs ihr =>
            intro acc hlt hacc
            have hr := ih r acc.2 (hlt r (by simp)) hacc
            have hstep := ihr (max acc.1 (getMaxDepthS store fuel r acc.2).1,
                (getMaxDepthS store fuel r acc.2).2)
              (fun x hx => hlt x (by simp [hx])) hr.2
            refine ⟨?_, hstep.2⟩
            rw [List.foldl_cons, hstep.1]
            simp only [maxDepthList, hr.1, List.map_cons]
            omega
      by_cases hc : (storedAt store i).refs.length > 0
      · have hl : i < store.length := by
          by_contra hl
          rw [storedAt_oob store i (by omega)] at hc
          simp [defaultStored] at hc
        have hlt : ∀ r ∈ (storedAt store i).refs, r < fuel := by
          intro r hr
          have := wfStore_ref_lt store hwf i r hl hr
          omega
        have hf := fold (storedAt store i).refs (0, tbl) hlt ht
        have hpure : getMaxDepth (cellOf store i) =
            maxDepthList ((storedAt store i).refs.map (cellOf store)) + 1 := by
          rw [cellOf_unfold store hwf i]
          simp only [getMaxDepth]
          rw [if_pos (by simpa using hc)]
        simp only [getMaxDepthS, hmd]
        rw [if_pos hc]
        refine ⟨?_, ?_⟩
        · simp only [hf.1, hpure]
          omega
        · apply tblOK_updateDepth store _ i hf.2
          rw [hpure, hf.1]
          omega
      · have hpure : getMaxDepth (cellOf store i) = 0 := by
          rw [cellOf_unfold store hwf i]
          simp only [getMaxDepth]
          rw [if_neg (by simpa using hc)]
        simp only [getMaxDepthS, hmd]
        rw [if_neg hc]
        exact ⟨by rw [hpure], tblOK_updateDepth store tbl i ht (by rw [hpure])⟩
    · -- memo hit
      have h1 := (ht i).1
      rw [hmd] at h1
      rcases h1 with h1 | h1
      · exact Option.noConfusion h1
      · simp only [getMaxDepthS, hmd]
        exact ⟨Option.some_inj.mp h1, ht⟩

theorem hashCellS_correct (store : List StoredCell) (hwf : wfStoreB store = true) :
    ∀ fuel i tbl, i < fuel → tblOK store tbl →
      (hashCellS store fuel i tbl).1 = hashCell (cellOf store i) ∧
      tblOK store (hashCellS store fuel i tbl).2 := by
  intro fuel
  induction fuel with
  | zero => intro i tbl h _; omega
  | succ fuel ih =>
    intro i tbl hi ht
    rcases hmh : (tbl i).hash with _ | h0
    · have dfold :
          ∀ rs (acc : List Nat × (Nat → CellCache)),
            (∀ r ∈ rs, r < fuel) → tblOK store acc.2 →
            (List.foldl (fun acc r =>
                (acc.1 ++ [(getMaxDepthS store fuel r acc.2).1 / 256 % 256,
                  (getMaxDepthS store fuel r acc.2).1 % 256],
                 (getMaxDepthS store fuel r acc.2).2)) acc rs).1
              = acc.1 ++ depthBytes (rs.map (cellOf store)) ∧
            tblOK store (List.foldl (fun acc r =>
                (acc.1 ++ [(getMaxDepthS store fuel r acc.2).1 / 256 % 256,
                  (getMaxDepthS store fuel r acc.2).1 % 256],
                 (getMaxDepthS store fuel r acc.2).2)) acc rs).2 := by
        intro rs
        induction rs with
        | nil =>
            intro acc _ hacc
            exact ⟨by simp [depthBytes, concatMap], hacc⟩
        | cons r rs ihr =>
            intro acc hlt hacc
            have hr := getMaxDepthS_correct store hwf fuel r acc.2 (hlt r (by simp)) hacc
            have hstep := ihr (acc.1 ++ [(getMaxDepthS store fuel r acc.2).1 / 256 % 256,
                (getMaxDepthS store fuel r acc.2).1 % 256],
                (getMaxDepthS store fuel r acc.2).2)
              (fun x hx => hlt x (by simp [hx])) hr.2
            refine ⟨?_, hstep.2⟩
            rw [List.foldl_cons, hstep.1]
            simp only [depthBytes, concatMap, List.map_cons, hr.1, List.append_assoc,
              List.cons_append, List.nil_append]
      have hfold :
          ∀ rs (acc : List Nat × (Nat → CellCache)),
            (∀ r ∈ rs, r < fuel) → tblOK store acc.2 →
            (List.foldl (fun acc r =>
                (acc.1 ++ (hashCellS store fuel r acc.2).1,
                 (hashCellS store fuel r acc.2).2)) acc rs).1
              = acc.1 ++ hashConcat (rs.map (cellOf store)) ∧
            tblOK store (List.foldl (fun acc r =>
                (acc.1 ++ (hashCellS store fuel r acc.2).1,
                 (hashCellS store fuel r acc.2).2)) acc rs).2 := by
        intro rs
        induction rs with
        | nil =>
            intro acc _ hacc
            exact ⟨by simp [hashConcat], hacc⟩
        | cons r rs ihr =>
            intro acc hlt hacc
            have hr := ih r acc.2 (hlt r (by simp)) hacc
            have hstep := ihr (acc.1 ++ (hashCellS store fuel r acc.2).1,
                (hashCellS store fuel r acc.2).2)
              (fun x hx => hlt x (by simp [hx])) hr.2
            refine ⟨?_, hstep.2⟩
            rw [List.foldl_cons, hstep.1]
            simp only [hashConcat, List.map_cons, hr.1, List.append_assoc]
      have hlt : ∀ r ∈ (storedAt store i).refs, r < fuel := by
        intro r hr
        by_cases hl : i < store.length
        · have := wfStore_ref_lt store hwf i r hl hr
          omega
        · rw [storedAt_oob store i (by omega)] at hr
          simp [defaultStored] at hr
      have hd := dfold (storedAt store i).refs ([], tbl) hlt ht
      have hh := hfold (storedAt store i).refs
        ([], (List.foldl (fun acc r =>
            (acc.1 ++ [(getMaxDepthS store fuel r acc.2).1 / 256 % 256,
              (getMaxDepthS store fuel r acc.2).1 % 256],
             (getMaxDepthS store fuel r acc.2).2)) ([], tbl) (storedAt store i).refs).2)
        hlt hd.2
      have hpure : hashCell (cellOf store i) =
          sha256 (((storedAt store i).refs.length +
              (if (storedAt store i).kind != CellKind.ordinary then 1 else 0) * 8) % 256 ::
            (((storedAt store i).bits.length +
                (if (storedAt store i).kind != CellKind.ordinary then 8 else 0) + 7) / 8 +
              ((storedAt store i).bits.length +
                (if (storedAt store i).kind != CellKind.ordinary then 8 else 0)) / 8) % 256 ::
            (writeTopUppedArray (storedAt store i).bits ++
              depthBytes ((storedAt store i).refs.map (cellOf store)) ++
              hashConcat ((storedAt store i).refs.map (cellOf store)))) := by
        rw [cellOf_unfold store hwf i]
        simp only [hashCell, getRefsDescriptor, getBitsDescriptor, getMaxLevel,
          Cell.isExotic, Cell.kind_mk, Cell.bits_mk, Cell.refs_mk, List.length_map,
          Nat.mul_zero, Nat.zero_mul, Nat.add_zero]
      simp only [hashCellS, hmh]
      refine ⟨?_, ?_⟩
      · rw [hh.1, hd.1, hpure]
        simp only [List.nil_append]
      · apply tblOK_updateHash store _ i _ hh.2
        rw [hh.1, hd.1, hpure]
        simp only [List.nil_append]
    · have h1 := (ht i).2
      rw [hmh] at h1
      rcases h1 with h1 | h1
      · exact Option.noConfusion h1
      · simp only [hashCellS, hmh]
        exact ⟨Option.some_inj.mp h1, ht⟩

theorem runTopOp_fresh (op : TopOp) (h : opWF op = true) :
    runTopOp op none = (pureResult op, none) := by
  cases op with
  | depth s i =>
      have hc := getMaxDepthS_correct s h (i + 1) i (fun _ => emptyCache)
        (by omega) (tblOK_empty s)
      simp only [runTopOp, topGetMaxDepth, pureResult, hc.1]
  | hash s i =>
      have hc := hashCellS_correct s h (i + 1) i (fun _ => emptyCache)
        (by omega) (tblOK_empty s)
      simp only [runTopOp, topHashCell, pureResult, hc.1]
  | serialize s i a b c f =>
      rfl

theorem runTopOps_pure (ops : List TopOp) (h : ops.all opWF = true) :
    runTopOps ops none = (ops.map pureResult, none) := by
  induction ops with
  | nil => rfl
  | cons op ops ihop =>
      rw [List.all_cons, Bool.and_eq_true] at h
      simp only [runTopOps, runTopOp_fresh op h.1, ihop h.2, List.map_cons]

/-! ## Supporting definitions and lemmas for the claim statements -/

theorem writeNumber_two (n : Nat) : writeNumber n 2 = [n / 256 % 256, n % 256] := by
  simp [writeNumber, List.range_succ]

theorem depthBytes_spec (rs : List Cell) :
    depthBytes rs = concatMap (fun r => writeNumber (getMaxDepth r) 2) rs := by
  simp only [depthBytes, writeNumber_two]

theorem hashConcat_concatMap (rs : List Cell) : hashConcat rs = concatMap hashCell rs := by
  induction rs with
  | nil => rfl
  | cons c cs ih => simp [hashConcat, concatMap, ih]

theorem maxDepthList_foldr (rs : List Cell) :
    maxDepthList rs = (rs.map getMaxDepth).foldr max 0 := by
  induction rs with
  | nil => rfl
  | cons c cs ih => simp [maxDepthList, ih]

theorem deserializeBoc_ok_parts (input : List Nat) (hdr : BocHeader)
    (recs : List ((CellKind × List Bool) × List Nat)) (cells : List Cell)
    (hh : parseBocHeader input = .ok hdr)
    (hr : decodeRecords hdr.cells_num hdr.cells_data hdr.size_bytes = .ok recs)
    (hl : linkCells recs = .ok cells) :
    deserializeBoc input = .ok (hdr.root_list.map (fun ri => cells.get? ri)) := by
  unfold deserializeBoc
  simp only [hh, hr, hl]

theorem deserializeBoc_link_error (input : List Nat) (hdr : BocHeader)
    (recs : List ((CellKind × List Bool) × List Nat)) (e : BocError)
    (hh : parseBocHeader input = .ok hdr)
    (hr : decodeRecords hdr.cells_num hdr.cells_data hdr.size_bytes = .ok recs)
    (hl : linkCells recs = .error e) :
    deserializeBoc input = .error e := by
  unfold deserializeBoc
  simp only [hh, hr, hl]

/-! ## The claims -/

/-- C1 (amended).  The linking pass of `deserializeBoc` rejects a cell
record exactly when one of its reference indices is STRICTLY below its
own position: for every input whose header and record stream parse, the
result is the `brokenTopoOrder` error if and only if some record at
position `i` holds a reference index `r < i`.  In particular a
self-reference `r = i` is NOT rejected (the source checks `r < ci`
only); the claim's `j ≤ i` must be weakened to `j < i`, see the
counterexample. -/
theorem claimC1 (input : List Nat) (hdr : BocHeader)
    (recs : List ((CellKind × List Bool) × List Nat))
    (hh : parseBocHeader input = .ok hdr)
    (hr : decodeRecords hdr.cells_num hdr.cells_data hdr.size_bytes = .ok recs) :
    ((∃ i p, recs.get? i = some p ∧ ∃ r ∈ p.2, r < i) ↔
      deserializeBoc input = .error .brokenTopoOrder) := by
  constructor
  · intro hbad
    obtain ⟨i, p, hip, r, hrr, hlt⟩ := hbad
    obtain ⟨e, he⟩ := (linkAux_error_iff recs 0).2 ⟨i, p, hip, r, hrr, by omega⟩
    have heb : e = .brokenTopoOrder := linkAux_error_broken recs 0 e he
    subst heb
    exact deserializeBoc_link_error input hdr recs _ hh hr he
  · intro herr
    unfold deserializeBoc at herr
    simp only [hh, hr] at herr
    rcases hl : linkCells recs with e | cells
    · rw [hl] at herr
      obtain ⟨i, p, hip, r, hrr, hlt⟩ := (linkAux_error_iff recs 0).1 ⟨e, hl⟩
      exact ⟨i, p, hip, r, hrr, by omega⟩
    · rw [hl] at herr
      exact Except.noConfusion herr

/-- Witness for C1 on a concrete bad input: cell record 1 of this
two-cell container references index 0 < 1, and deserialization indeed
reports the topological-order error. -/
theorem claimC1_witness :
    deserializeBoc [181, 238, 156, 114, 1, 1, 2, 1, 0, 5, 0, 0, 0, 1, 0, 0] =
      .error .brokenTopoOrder :=
  (claimC1 [181, 238, 156, 114, 1, 1, 2, 1, 0, 5, 0, 0, 0, 1, 0, 0]
    { has_idx := false, hash_crc32 := false, has_cache_bits := false, flags := 0,
      size_bytes := 1, off_bytes := 1, cells_num := 2, roots_num := 1, absent_num := 0,
      tot_cells_size := 5, root_list := [0], index := none,
      cells_data := [0, 0, 1, 0, 0] }
    [((CellKind.ordinary, []), []), ((CellKind.ordinary, []), [0])]
    (by decide) (by decide)).1
    ⟨1, ((CellKind.ordinary, []), [0]), by decide, 0, by decide, by decide⟩

/-- Counterexample to C1 as stated: in this container the record at
position 0 carries the reference index 0, i.e. `j ≤ i` with `j = i`,
yet `deserializeBoc` does not report any error — it returns a linked
root (the source's check `r < ci` lets the self-reference through). -/
theorem claimC1_counterexample :
    parseBocHeader [181, 238, 156, 114, 1, 1, 1, 1, 0, 3, 0, 1, 0, 0] =
      .ok { has_idx := false, hash_crc32 := false, has_cache_bits := false, flags := 0,
            size_bytes := 1, off_bytes := 1, cells_num := 1, roots_num := 1, absent_num := 0,
            tot_cells_size := 3, root_list := [0], index := none, cells_data := [1, 0, 0] } ∧
    decodeRecords 1 [1, 0, 0] 1 = .ok [((CellKind.ordinary, []), [0])] ∧
    deserializeBoc [181, 238, 156, 114, 1, 1, 1, 1, 0, 3, 0, 1, 0, 0] =
      .ok [some (Cell.mk CellKind.ordinary [] [Cell.mk CellKind.ordinary [] []])] := by
  refine ⟨by decide, by decide, by decide⟩

/-- C2 (amended).  All header reads except one are covered by a
preceding length check: whenever the model marks a read past the
available bytes (`readPastEnd`, the stand-in for the silent JS
`undefined`/`NaN` read), the culprit is necessarily the
`offset_bytes`-wide total-size read, and that is possible exactly
because the counters check covers `1 + 5 * size_bytes` bytes while the
five counter reads consume `1 + 3 * size_bytes + offset_bytes`: a past-
end read implies `2 * size_bytes < offset_bytes`.  With
`offset_bytes ≤ 2 * size_bytes` every read is covered, but the claim's
"no field is ever decoded from bytes that the preceding check did not
cover" is false in general, see the counterexample. -/
theorem claimC2 (input : List Nat)
    (h : parseBocHeader input = .error .readPastEnd) :
    2 * headerSizeBytes input < headerOffsetByte input :=
  parseBocHeader_readPastEnd input h

/-- Witness for C2: on this input (size_bytes 1, offset byte 3) the
parse reads past the end and indeed 2·1 < 3. -/
theorem claimC2_witness :
    parseBocHeader [181, 238, 156, 114, 1, 3, 1, 1, 0, 0, 0] = .error .readPastEnd ∧
    2 * headerSizeBytes [181, 238, 156, 114, 1, 3, 1, 1, 0, 0, 0] <
      headerOffsetByte [181, 238, 156, 114, 1, 3, 1, 1, 0, 0, 0] :=
  ⟨by decide, claimC2 [181, 238, 156, 114, 1, 3, 1, 1, 0, 0, 0] (by decide)⟩

/-- Counterexample to C2 as stated: this input passes the counters
check (`1 + 5 * size_bytes = 6` remaining bytes suffice), but its
offset byte is 200, so the total-size read consumes bytes far beyond
what any check covered — the model's `readPastEnd` marks the read of
bytes the preceding check did not cover. -/
theorem claimC2_counterexample :
    parseBocHeader [181, 238, 156, 114, 1, 200, 1, 1, 0, 0, 0] =
      .error .readPastEnd := by
  decide

/-- C3.  CRC acceptance safety: whenever `parseBocHeader` accepts an
input whose header enables the CRC32C trailer, the input is literally
some prefix (the header region), followed by the cell-data region the
header reports, followed by exactly the 4-byte CRC32C digest of
everything before the trailer — i.e. the recomputed checksum over every
byte of the original input up to the trailer agrees with the trailer,
and a container whose recomputed checksum differs from its trailer is
never accepted. -/
theorem claimC3 (input : List Nat) (hdr : BocHeader)
    (hok : parseBocHeader input = .ok hdr) (hcrc : hdr.hash_crc32 = true) :
    ∃ pre : List Nat,
      input = pre ++ hdr.cells_data ++ crc32c (pre ++ hdr.cells_data) ∧
      (crc32c (pre ++ hdr.cells_data)).length = 4 :=
  parseBocHeader_crc_region input hdr hok hcrc

/-- Witness for C3 on the CRC-carrying serialization of the empty cell. -/
theorem claimC3_witness :
    ∃ pre : List Nat,
      [181, 238, 156, 114, 65, 1, 1, 1, 0, 2, 0, 0, 0, 222, 203, 8, 11] =
        pre ++ [0, 0] ++ crc32c (pre ++ [0, 0]) ∧
      (crc32c (pre ++ [0, 0])).length = 4 :=
  claimC3 [181, 238, 156, 114, 65, 1, 1, 1, 0, 2, 0, 0, 0, 222, 203, 8, 11]
    { has_idx := false, hash_crc32 := true, has_cache_bits := false, flags := 0,
      size_bytes := 1, off_bytes := 1, cells_num := 1, roots_num := 1, absent_num := 0,
      tot_cells_size := 2, root_list := [0], index := none, cells_data := [0, 0] }
    (by decide) (by decide)

/-- C4.  Round-trip: serializing any cell tree of the five supported
kinds whose cells carry at most 7 references and a payload fitting the
one-byte bits descriptor (`cellFitB`), with any flag combination
(`flags ≤ 3` and fewer than 2^23 cells, the widths the header encoding
accommodates), and deserializing the result, succeeds and returns
exactly one root structurally equal to the original tree — hence with
equal `hashCell` at every corresponding cell. -/
theorem claimC4 (c : Cell) (i cr ch : Bool) (f : Nat)
    (hf : f ≤ 3) (hfit : cellAllB cellFitB c = true) (hn : cellCount c < 2 ^ 23) :
    deserializeBoc (serializeToBoc c i cr ch f) = .ok [some c] :=
  deserializeBoc_serializeToBoc c i cr ch f hf hfit hn

/-- Witness for C4: the empty ordinary cell round-trips through the
indexed, CRC-carrying serialization. -/
theorem claimC4_witness :
    deserializeBoc (serializeToBoc emptyCell true true false 0) = .ok [some emptyCell] :=
  claimC4 emptyCell true true false 0 (by decide) (by decide) (by decide)

/-- C5.  The concrete scenario of the specification: for the
empty-payload ordinary cell with no refs, `s_bytes` and `offset_bytes`
both come out as 1, serialization with `has_idx = false` and
`hash_crc32 = false` yields exactly
`4 + 1 + 1 + 3·s_bytes + offset_bytes + s_bytes + 2 = 13` bytes, and
the cell's hash is SHA-256 of the two-byte representation `[0, 0]`. -/
theorem claimC5 :
    bocSBytes emptyCell = 1 ∧ bocOffsetBytes emptyCell = 1 ∧
    (serializeToBoc emptyCell false false false 0).length = 4 + 1 + 1 + 3 * 1 + 1 + 1 + 2 ∧
    hashCell emptyCell = sha256 [0, 0] := by
  decide

/-- C6.  The depth law: a cell's `getMaxDepth` is 0 exactly when it has
no references, and with at least one reference it is one more than the
maximum of its children's depths. -/
theorem claimC6 (c : Cell) :
    (getMaxDepth c = 0 ↔ c.refs = []) ∧
    (c.refs ≠ [] → getMaxDepth c = 1 + (c.refs.map getMaxDepth).foldr max 0) := by
  cases c with
  | mk k b rs =>
    simp only [Cell.refs_mk, getMaxDepth]
    constructor
    · cases rs with
      | nil => simp
      | cons r rest => simp
    · intro hne
      rw [if_pos (by simpa [List.length_pos] using hne), maxDepthList_foldr]
      omega

/-- Witness for C6 on a one-child cell: its depth is 1 + the child's 0. -/
theorem claimC6_witness :
    getMaxDepth (Cell.mk CellKind.ordinary [] [emptyCell]) =
      1 + (([emptyCell].map getMaxDepth).foldr max 0) :=
  (claimC6 (Cell.mk CellKind.ordinary [] [emptyCell])).2 (by decide)

/-- C7.  The canonical representation hashed by `hashCell` is exactly
the buffer the specification describes (`reprSpec`, worded from the
spec: refs/level descriptor byte, byte-rounded length descriptor
counting 8 extra bits for the exotic marker, top-upped payload,
children's big-endian 16-bit max depths in ref order, children's
32-byte hashes in ref order — and nothing else): the source's `getRepr`
produces that buffer and `hashCell` is its SHA-256 digest. -/
theorem claimC7 (c : Cell) :
    getRepr c = reprSpec c ∧ hashCell c = sha256 (reprSpec c) := by
  have hrepr : getRepr c = reprSpec c := by
    cases c with
    | mk k b rs =>
      simp only [getRepr, reprSpec, getRefsDescriptor, getBitsDescriptor, getMaxLevel,
        Cell.refs_mk, Cell.bits_mk, depthBytes_spec, hashConcat_concatMap,
        Nat.mul_zero, Nat.zero_mul, Nat.add_zero, Nat.mul_comm]
  exact ⟨hrepr, by rw [hashCell_eq, hrepr]⟩

/-- C8 (amended).  The current-variant flag byte does pack `has_index`
in bit 7, `has_crc32` in bit 6, `has_cache_bits` in bit 5, the flags
field in bits 4-3 and `size_bytes` in bits 2-0, and parsing recovers
the three booleans and `size_bytes` from those positions — but the
`flags` value is NOT decoded back to `f`: the source computes
`(flags_byte & 16) * 2 + (flags_byte & 8)`, so a header built with
flags `f ≤ 3` parses to `f % 2 * 8 + f / 2 * 32` (e.g. `f = 1` parses
to 8, not 1); the claim's "yields flags = f" holds only for `f = 0`,
see the counterexample. -/
theorem claimC8 (c : Cell) (i cr ch : Bool) (f : Nat)
    (hf : f ≤ 3) (hfit : cellAllB cellFitB c = true) (hn : cellCount c < 2 ^ 23) :
    ∃ hdr : BocHeader,
      parseBocHeader (serializeToBoc c i cr ch f) = .ok hdr ∧
      hdr.has_idx = i ∧ hdr.hash_crc32 = cr ∧ hdr.has_cache_bits = ch ∧
      hdr.size_bytes = bocSBytes c ∧ hdr.flags = f % 2 * 8 + f / 2 * 32 :=
  ⟨_, parseBocHeader_serializeToBoc c i cr ch f hf hfit hn, rfl, rfl, rfl, rfl, rfl⟩

/-- Witness for C8: with flags 3 the empty cell's header parses to
flags 3 % 2 * 8 + 3 / 2 * 32 = 40. -/
theorem claimC8_witness :
    ∃ hdr : BocHeader,
      parseBocHeader (serializeToBoc emptyCell true false false 3) = .ok hdr ∧
      hdr.has_idx = true ∧ hdr.hash_crc32 = false ∧ hdr.has_cache_bits = false ∧
      hdr.size_bytes = bocSBytes emptyCell ∧ hdr.flags = 3 % 2 * 8 + 3 / 2 * 32 :=
  claimC8 emptyCell true false false 3 (by decide) (by decide) (by decide)

/-- Counterexample to C8 as stated: a current-variant container built
by `serializeToBoc` with flags 1 parses to a header whose flags field
is 8, not 1. -/
theorem claimC8_counterexample :
    parseBocHeader (serializeToBoc emptyCell false false false 1) =
      .ok { has_idx := false, hash_crc32 := false, has_cache_bits := false, flags := 8,
            size_bytes := 1, off_bytes := 1, cells_num := 1, roots_num := 1,
            absent_num := 0, tot_cells_size := 2, root_list := [0], index := none,
            cells_data := [0, 0] } ∧ (8 : Nat) ≠ 1 := by
  refine ⟨by decide, by decide⟩

/-- C9.  Cache isolation of the hash engine: starting from no cache
context (the module-global `cacheContext` is `null` between top-level
calls), ANY sequence of top-level `hashCell`/`getMaxDepth`/
`serializeToBoc` calls — each seeing the heap as it stands at that
moment, so mutations of a cell's payload or refs between calls are
allowed — returns for every single call exactly the pure function of
that call's current heap content, and leaves the context torn down
(`none`) again.  Hence repeated `hashCell` calls agree, results are
independent of whatever unrelated calls happened before, a fresh
context is created and torn down by each top-level call, and a stale
cached value is never returned after a mutation. -/
theorem claimC9 (ops : List TopOp) (h : ops.all opWF = true) :
    runTopOps ops none = (ops.map pureResult, none) :=
  runTopOps_pure ops h

/-- Witness for C9 on the concrete interleaving with a mutation: every
call returns the pure hash/depth/serialization of its own heap
snapshot. -/
theorem claimC9_witness :
    runTopOps c9ops none = (c9ops.map pureResult, none) :=
  claimC9 c9ops (by decide)

/-- C10.  Unchecked root indices: on any input whose header, record
stream and linking pass all succeed, `deserializeBoc` reports no error
even if a root-list entry `r` is at least `cells_num` — it returns the
root list with the unchecked array lookup, and the entry for every such
out-of-range `r` is `none` (JS `undefined`), not a decoded cell. -/
theorem claimC10 (input : List Nat) (hdr : BocHeader)
    (recs : List ((CellKind × List Bool) × List Nat)) (cells : List Cell)
    (hh : parseBocHeader input = .ok hdr)
    (hr : decodeRecords hdr.cells_num hdr.cells_data hdr.size_bytes = .ok recs)
    (hl : linkCells recs = .ok cells) :
    deserializeBoc input = .ok (hdr.root_list.map (fun ri => cells.get? ri)) ∧
    ∀ ri ∈ hdr.root_list, hdr.cells_num ≤ ri → cells.get? ri = none := by
  refine ⟨deserializeBoc_ok_parts input hdr recs cells hh hr hl, ?_⟩
  intro ri _ hge
  have hlen : cells.length = recs.length := linkAux_length recs 0 cells hl
  have hlen2 : recs.length = hdr.cells_num :=
    decodeRecords_length hdr.cells_num hdr.cells_data hdr.size_bytes recs hr
  exact List.get?_eq_none.mpr (by omega)

/-- Witness for C10: a container whose only root entry is index 5 with
a single cell deserializes without error to the root list `[none]`. -/
theorem claimC10_witness :
    deserializeBoc [181, 238, 156, 114, 1, 1, 1, 1, 0, 2, 5, 0, 0] = .ok [none] ∧
    ∀ ri ∈ [5], 1 ≤ ri → ([Cell.mk CellKind.ordinary [] []].get? ri = none) :=
  claimC10 [181, 238, 156, 114, 1, 1, 1, 1, 0, 2, 5, 0, 0]
    { has_idx := false, hash_crc32 := false, has_cache_bits := false, flags := 0,
      size_bytes := 1, off_bytes := 1, cells_num := 1, roots_num := 1, absent_num := 0,
      tot_cells_size := 2, root_list := [5], index := none, cells_data := [0, 0] }
    [((CellKind.ordinary, []), [])] [Cell.mk CellKind.ordinary [] []]
    (by decide) (by decide) (by decide)
